import Mathlib

/-!
# Smart Style Replacer: a verification development

A shallow embedding of `src/smart-style-replacer.js`.

The script is JavaScript, so three pieces of the language runtime that the
script calls are embedded next to the script's own two functions:

* `String.prototype.trim` (`trim`),
* the regular-expression matcher for the pattern dialect fragment the script
  uses (`tokenize`, `buildNodes`, `matchNodes`),
* `String.prototype.replace` with a global regular expression and a string
  replacement template (`getSubstitution`, `replaceGo`, `replaceAll`).

A JavaScript string is embedded as a list of characters.  Every character
that the script or the pattern dialect treats specially is a single UTF-16
code unit, and no operation used here splits a character, so a well-formed
string behaves the same read as code units or as characters.

The script mutates the scenes in place and returns the array it was given;
the embedding returns the new list of scenes, together with the messages
passed to `console.warn`.  Each element of the list stands for a scene object
of its own: an array that holds one object at several indices, which the loop
of the script visits and rewrites once per index, has no counterpart in the
embedding.
-/

namespace SmartStyleReplacer

/-- A JavaScript string value. -/
abbrev JSString := List Char

/-! ## Character classes of the language -/

/-- The `LineTerminator` production: LF, CR, LS (U+2028), PS (U+2029). -/
def isLineTerminator (c : Char) : Bool :=
  c = '\n' || c = '\r' || c = '\u2028' || c = '\u2029'

/-- The `WhiteSpace` production: TAB, VT, FF, ZWNBSP (U+FEFF) and the space
separators (general category Zs): U+0020, U+00A0, U+1680, U+2000 to U+200A,
U+202F, U+205F, U+3000. -/
def isWhiteSpace (c : Char) : Bool :=
  c = '\t' || c = '\x0b' || c = '\x0c' || c = '\ufeff' ||
  c = ' ' || c = '\u00a0' || c = '\u1680' ||
  c = '\u2000' || c = '\u2001' || c = '\u2002' || c = '\u2003' || c = '\u2004' ||
  c = '\u2005' || c = '\u2006' || c = '\u2007' || c = '\u2008' || c = '\u2009' ||
  c = '\u200a' || c = '\u202f' || c = '\u205f' || c = '\u3000'

/-- The characters matched by `\s` and stripped by `trim`: `WhiteSpace` or
`LineTerminator`. -/
def isSpaceClass (c : Char) : Bool :=
  isWhiteSpace c || isLineTerminator c

/-- The `SyntaxCharacter` production of the pattern grammar. -/
def isSyntaxCharacter (c : Char) : Bool :=
  c = '^' || c = '$' || c = '\\' || c = '.' || c = '*' || c = '+' || c = '?' ||
  c = '(' || c = ')' || c = '[' || c = ']' || c = '\x7b' || c = '\x7d' || c = '|'

/-- Decimal digits, as read by the replacement-template expansion. -/
def isDigit (c : Char) : Bool :=
  c = '0' || c = '1' || c = '2' || c = '3' || c = '4' ||
  c = '5' || c = '6' || c = '7' || c = '8' || c = '9'

/-- The numeric value of a decimal digit. -/
def digitValue (c : Char) : Nat := c.toNat - '0'.toNat

/-! ## `String.prototype.trim` -/

/-- Strip leading white space and line terminators. -/
def trimStart (s : JSString) : JSString := s.dropWhile isSpaceClass

/-- Strip trailing white space and line terminators. -/
def trimEnd (s : JSString) : JSString := (trimStart s.reverse).reverse

/-- The method `trim`: strip at both ends. -/
def trim (s : JSString) : JSString := trimEnd (trimStart s)

/-! ## Regular expressions: the fragment of the dialect that the script uses -/

/-- A set of characters that a pattern atom matches. -/
inductive CharSet where
  /-- A pattern character, or an identity escape of a syntax character. -/
  | char (c : Char)
  /-- The atom `.` (without the `s` flag): anything but a line terminator. -/
  | any
  /-- The class escape `\s`. -/
  | space
  /-- A bracket class that lists single characters. -/
  | oneOf (cs : List Char)

/-- Whether a character belongs to the set. -/
def CharSet.test : CharSet → Char → Bool
  | .char c, x => x == c
  | .any, x => !isLineTerminator x
  | .space, x => isSpaceClass x
  | .oneOf cs, x => cs.contains x

/-- The lexical items of a pattern source. -/
inductive Token where
  | atom (s : CharSet)
  | caret
  | dollar
  | lparen
  | rparen
  | star
  | plus

/-- A pattern as a flat sequence of terms.  Groups are capturing, not nested
and not quantified; quantifiers are greedy and apply to one-character atoms. -/
inductive Node where
  /-- The assertion `^`. -/
  | lineStart
  /-- The assertion `$`. -/
  | lineEnd
  /-- An atom matching one character. -/
  | one (s : CharSet)
  /-- A greedy `atom*`. -/
  | star (s : CharSet)
  /-- A greedy `atom+`. -/
  | plus (s : CharSet)
  /-- The opening parenthesis of a capturing group. -/
  | groupOpen
  /-- The closing parenthesis of a capturing group. -/
  | groupClose

/-- A compiled regular expression with the `g` flag set. -/
structure RegExp where
  nodes : List Node
  /-- The `m` flag. -/
  multiline : Bool

/-- Split a pattern source into tokens.  `none` stands for a pattern that is
either rejected by the language (`\` at the end) or uses syntax outside the
embedded fragment (`?`, brackets, braces, alternation, other escapes). -/
def tokenize : JSString → Option (List Token)
  | [] => some []
  | c :: t =>
    if c = '\\' then
      match t with
      | [] => none
      | e :: t2 =>
        if e = 's' then (tokenize t2).map (fun ts => Token.atom CharSet.space :: ts)
        else if isSyntaxCharacter e then
          (tokenize t2).map (fun ts => Token.atom (CharSet.char e) :: ts)
        else none
    else if c = '^' then (tokenize t).map (fun ts => Token.caret :: ts)
    else if c = '$' then (tokenize t).map (fun ts => Token.dollar :: ts)
    else if c = '.' then (tokenize t).map (fun ts => Token.atom CharSet.any :: ts)
    else if c = '(' then (tokenize t).map (fun ts => Token.lparen :: ts)
    else if c = ')' then (tokenize t).map (fun ts => Token.rparen :: ts)
    else if c = '*' then (tokenize t).map (fun ts => Token.star :: ts)
    else if c = '+' then (tokenize t).map (fun ts => Token.plus :: ts)
    else if isSyntaxCharacter c then none
    else (tokenize t).map (fun ts => Token.atom (CharSet.char c) :: ts)

/-- Assemble tokens into terms.  The flag says whether a group is open.
`none` stands for a syntax error (a quantifier with nothing to repeat, an
unbalanced parenthesis) or for syntax outside the embedded fragment (a nested
or quantified group). -/
def buildNodes : List Token → Bool → Option (List Node)
  | [], inGroup => if inGroup then none else some []
  | Token.atom s :: Token.star :: ts, g => (buildNodes ts g).map (fun ns => Node.star s :: ns)
  | Token.atom s :: Token.plus :: ts, g => (buildNodes ts g).map (fun ns => Node.plus s :: ns)
  | Token.atom s :: ts, g => (buildNodes ts g).map (fun ns => Node.one s :: ns)
  | Token.caret :: ts, g => (buildNodes ts g).map (fun ns => Node.lineStart :: ns)
  | Token.dollar :: ts, g => (buildNodes ts g).map (fun ns => Node.lineEnd :: ns)
  | Token.lparen :: ts, false => (buildNodes ts true).map (fun ns => Node.groupOpen :: ns)
  | Token.lparen :: _, true => none
  | Token.rparen :: ts, true => (buildNodes ts false).map (fun ns => Node.groupClose :: ns)
  | Token.rparen :: _, false => none
  | Token.star :: _, _ => none
  | Token.plus :: _, _ => none

/-- The constructor `new RegExp(source, flags)` for flags `g` and, when asked,
`m`. -/
def RegExp.construct (source : JSString) (multiline : Bool) : Option RegExp :=
  match tokenize source with
  | none => none
  | some ts =>
    match buildNodes ts false with
    | none => none
    | some ns => some { nodes := ns, multiline := multiline }

/-! ## The backtracking matcher -/

/-- The outcome of a successful match attempt at one position. -/
structure MatchState where
  /-- The input that follows the match. -/
  rest : JSString
  /-- The input suffixes at the group parentheses passed, in pattern order. -/
  marks : List JSString

/-- The assertion `^`: at the start of the input, or (flag `m`) right after a
line terminator. -/
def atLineStart (multiline : Bool) : Option Char → Bool
  | none => true
  | some p => multiline && isLineTerminator p

/-- The assertion `$`: at the end of the input, or (flag `m`) right before a
line terminator. -/
def atLineEnd (multiline : Bool) : JSString → Bool
  | [] => true
  | c :: _ => multiline && isLineTerminator c

/-- The greedy loop of `atom*`: take one more character when the atom accepts
it and the rest of the pattern then succeeds, otherwise go on with the rest
of the pattern from here. -/
def starLoop (s : CharSet) (k : Option Char → JSString → Option MatchState) :
    Option Char → JSString → Option MatchState
  | prev, [] => k prev []
  | prev, c :: cs =>
    if s.test c then
      match starLoop s k (some c) cs with
      | some r => some r
      | none => k prev (c :: cs)
    else k prev (c :: cs)

/-- Match a sequence of terms at one position: `prev` is the character before
the position (if any) and the list is the input from the position on. -/
def matchNodes (multiline : Bool) : List Node → Option Char → JSString → Option MatchState
  | [], _, input => some { rest := input, marks := [] }
  | Node.lineStart :: ns, prev, input =>
    if atLineStart multiline prev then matchNodes multiline ns prev input else none
  | Node.lineEnd :: ns, prev, input =>
    if atLineEnd multiline input then matchNodes multiline ns prev input else none
  | Node.one s :: ns, _, input =>
    match input with
    | [] => none
    | c :: cs => if s.test c then matchNodes multiline ns (some c) cs else none
  | Node.star s :: ns, prev, input => starLoop s (matchNodes multiline ns) prev input
  | Node.plus s :: ns, _, input =>
    match input with
    | [] => none
    | c :: cs => if s.test c then starLoop s (matchNodes multiline ns) (some c) cs else none
  | Node.groupOpen :: ns, prev, input =>
    (matchNodes multiline ns prev input).map
      (fun r => { rest := r.rest, marks := input :: r.marks })
  | Node.groupClose :: ns, prev, input =>
    (matchNodes multiline ns prev input).map
      (fun r => { rest := r.rest, marks := input :: r.marks })

/-- The part of `start` that lies before its suffix `stop`. -/
def segment (start stop : JSString) : JSString :=
  start.take (start.length - stop.length)

/-- The captured substrings, one per group, from the parenthesis marks. -/
def captures : List JSString → List JSString
  | a :: b :: t => segment a b :: captures t
  | _ => []

/-! ## `String.prototype.replace` with a global regular expression -/

/-- One step of the abstract operation `GetSubstitution`, for a pattern
without named groups: the template remainder is `$` followed by `t`.  The
result is the text that the reference at this `$` stands for and the number
of characters of `t` that belong to the reference.  References are `$$`, `$&`,
the before and after references and `$n` or `$nn`; a `$` followed by anything
else stands for itself. -/
def substitutionAt (matched before after : JSString) (caps : List JSString) :
    JSString → JSString × Nat
  | [] => (['$'], 0)
  | d :: t2 =>
    if d = '$' then (['$'], 1)
    else if d = '&' then (matched, 1)
    else if d = '\x60' then (before, 1)
    else if d = '\x27' then (after, 1)
    else if isDigit d then
      match t2 with
      | [] =>
        if 1 ≤ digitValue d ∧ digitValue d ≤ caps.length
        then (caps.getD (digitValue d - 1) [], 1)
        else (['$', d], 1)
      | e :: _ =>
        if isDigit e ∧ 10 * digitValue d + digitValue e ≤ caps.length then
          if 1 ≤ 10 * digitValue d + digitValue e
          then (caps.getD (10 * digitValue d + digitValue e - 1) [], 2)
          else (['$', d, e], 2)
        else if 1 ≤ digitValue d ∧ digitValue d ≤ caps.length
        then (caps.getD (digitValue d - 1) [], 1)
        else (['$', d], 1)
    else (['$'], 0)

/-- The loop of `GetSubstitution` over the template; the counter is the number
of coming characters that belong to a reference already expanded. -/
def getSubstitutionGo (matched before after : JSString) (caps : List JSString) :
    JSString → Nat → JSString
  | [], _ => []
  | _ :: t, skip + 1 => getSubstitutionGo matched before after caps t skip
  | c :: t, 0 =>
    if c = '$' then
      (substitutionAt matched before after caps t).1
        ++ getSubstitutionGo matched before after caps t
            (substitutionAt matched before after caps t).2
    else c :: getSubstitutionGo matched before after caps t 0

/-- The abstract operation `GetSubstitution`: the replacement text for one
match, from the replacement template. -/
def getSubstitution (matched before after : JSString) (caps : List JSString)
    (template : JSString) : JSString :=
  getSubstitutionGo matched before after caps template 0

/-- One match attempt of a regular expression at the position that splits the
input into `before` and `input`: on success, the replacement text and the
length of the match. -/
def replacementAt (re : RegExp) (template before input : JSString) :
    Option (JSString × Nat) :=
  match matchNodes re.multiline re.nodes before.getLast? input with
  | none => none
  | some r =>
    some (getSubstitution (segment input r.rest) before r.rest (captures r.marks) template,
      input.length - r.rest.length)

/-- The loop of `replace` for a global regular expression.  The language
collects the matches by searching again and again from `lastIndex`, each
search trying the positions from there on, left to right, and stopping at the
first one where the pattern matches; the next search starts at the end of that
match, or one position further after an empty match; the stretches between
the matches are copied.  Here the same walk goes one input position at a
time.  The counter is the number of coming characters that lie inside the
match found last: they are dropped.  At any other position a match is
attempted; without one the character is copied.  After an empty match the
character is copied too and the search resumes behind it.  `before` is the
input up to the position. -/
def replaceGo (re : RegExp) (template : JSString) :
    JSString → Nat → JSString → JSString
  | [], 0, before =>
    match replacementAt re template before [] with
    | none => []
    | some (replacement, _) => replacement
  | [], _ + 1, _ => []
  | c :: cs, skip + 1, before => replaceGo re template cs skip (before ++ [c])
  | c :: cs, 0, before =>
    match replacementAt re template before (c :: cs) with
    | none => c :: replaceGo re template cs 0 (before ++ [c])
    | some (replacement, 0) => replacement ++ c :: replaceGo re template cs 0 (before ++ [c])
    | some (replacement, n + 1) => replacement ++ replaceGo re template cs n (before ++ [c])

/-- The call `input.replace(re, template)` for a global regular expression and
a string template. -/
def replaceAll (re : RegExp) (template input : JSString) : JSString :=
  replaceGo re template input 0 []

/-! ## The script -/

/-- The characters of the bracket class in `escapeRegExp`. -/
def escapedCharacters : List Char :=
  ['.', '*', '+', '?', '^', '$', '\x7b', '\x7d', '(', ')', '|', '[', ']', '\\']

/-- The regular expression literal of `escapeRegExp`: one bracket class, flag
`g`. -/
def escapeRegExpPattern : RegExp :=
  { nodes := [Node.one (CharSet.oneOf escapedCharacters)], multiline := false }

/-- The function `escapeRegExp`: replace every character of the class by a
backslash and the match (`$&`). -/
def escapeRegExp (string : JSString) : JSString :=
  replaceAll escapeRegExpPattern ['\\', '$', '&'] string

/-- The values that the script can meet in an option or in `contents`. -/
inductive JSValue where
  | undefined
  | null
  | string (s : JSString)
deriving DecidableEq, Repr

/-- A scene: its `contents` (absent is `undefined`) and its other attributes,
which the script never reads. -/
structure Scene where
  contents : JSValue
  attributes : List (JSString × JSValue)
deriving DecidableEq, Repr

/-- The `context` argument: `optionValues["marker"]` and
`optionValues["styleName"]`. -/
structure Context where
  marker : JSValue
  styleName : JSValue

/-- The failures that `compile` can raise. -/
inductive JSError where
  /-- The constructor `new RegExp` rejected the pattern. -/
  | syntaxError
deriving DecidableEq, Repr

/-- What a call of `compile` produces: the messages passed to `console.warn`
and the array that it returns. -/
structure CompileResult where
  warnings : List JSString
  scenes : List Scene
deriving DecidableEq, Repr

/-- The expression `v?.trim()`. -/
def optionalTrim : JSValue → JSValue
  | JSValue.string s => JSValue.string (trim s)
  | _ => JSValue.undefined

/-- Truthiness of a value. -/
def truthy : JSValue → Bool
  | JSValue.string s => !s.isEmpty
  | _ => false

/-- The message of the warning. -/
def warningMessage : JSString :=
  "Smart Style Replacer: Marker or Style Name is missing. Skipping step.".toList

/-- The source of the generated pattern: `^`, the escaped marker,
`\s+(.*)$`. -/
def patternSource (markerInput : JSString) : JSString :=
  ['^'] ++ escapeRegExp markerInput ++ ['\\', 's', '+', '(', '.', '*', ')', '$']

/-- The replacement template: the opening line of the fenced block with the
style name twice, a line break, `$1`, a line break, the closing `:::`. -/
def replacementTemplate (styleName : JSString) : JSString :=
  [':', ':', ':', ' ', '\x7b', 'c', 'u', 's', 't', 'o', 'm', '-', 's', 't', 'y', 'l', 'e',
    '=', '\x22'] ++ styleName ++ ['\x22', ' ', '.'] ++ styleName
    ++ ['\x7d', '\n', '$', '1', '\n', ':', ':', ':']

/-- The body of the loop over the scenes: a scene with truthy contents gets
its contents replaced. -/
def compileScene (generatedRegex : RegExp) (replacement : JSString) (scene : Scene) : Scene :=
  match scene.contents with
  | JSValue.string s =>
    if truthy (JSValue.string s)
    then { scene with contents := JSValue.string (replaceAll generatedRegex replacement s) }
    else scene
  | _ => scene

/-- The function `compile`.  The loop over the array is the map over the list
of scenes: every scene of the list is visited once. -/
def compile (input : List Scene) (context : Context) : Except JSError CompileResult :=
  match optionalTrim context.marker, optionalTrim context.styleName with
  | JSValue.string markerInput, JSValue.string styleName =>
    if markerInput = [] ∨ styleName = [] then
      Except.ok { warnings := [warningMessage], scenes := input }
    else
      match RegExp.construct (patternSource markerInput) true with
      | none => Except.error JSError.syntaxError
      | some generatedRegex =>
        Except.ok
          { warnings := []
            scenes := input.map (compileScene generatedRegex (replacementTemplate styleName)) }
  | _, _ => Except.ok { warnings := [warningMessage], scenes := input }

/-- One entry of `description.options`. -/
structure OptionDescription where
  id : JSString
  name : JSString
  description : JSString
  type : JSString
  default : JSString
deriving DecidableEq, Repr

/-- The shape of `module.exports.description`. -/
structure StepDescription where
  name : JSString
  description : JSString
  availableKinds : List JSString
  options : List OptionDescription
deriving DecidableEq, Repr

/-- The exported `description`. -/
def description : StepDescription :=
  { name := "Smart Style Replacer".toList
    description := ("Wraps text lines starting with a specific marker into a Pandoc "
      ++ "custom-style block (Fenced Div). Ideal for chat logs, poetry, or special "
      ++ "formatting.").toList
    availableKinds := ["Scene".toList]
    options :=
      [ { id := "marker".toList
          name := "Line Marker".toList
          description := ("The short code at the start of the line (e.g. \x27>r\x27 or "
            ++ "\x27>l\x27). The script assumes there is at least one space after the "
            ++ "marker.").toList
          type := "Text".toList
          default := ">r".toList },
        { id := "styleName".toList
          name := "Style Name (Word & CSS)".toList
          description := ("The name of the style to apply. Must match a style in your "
            ++ "Reference Doc (for Word) and a class in your CSS (for EPUB). Example: "
            ++ "\x27RightAligned\x27.").toList
          type := "Text".toList
          default := "RightAligned".toList } ] }

/-! ## The behaviour in the words of the specification -/

/-- The opening line of a fenced block: `::: {custom-style="S" .S}`. -/
def openingLine (styleName : JSString) : JSString :=
  [':', ':', ':', ' ', '\x7b', 'c', 'u', 's', 't', 'o', 'm', '-', 's', 't', 'y', 'l', 'e',
    '=', '\x22'] ++ styleName ++ ['\x22', ' ', '.'] ++ styleName ++ ['\x7d']

/-- The three-line fenced block: the opening line, the captured content, the
closing `:::`. -/
def fencedBlock (styleName content : JSString) : JSString :=
  openingLine styleName ++ ['\n'] ++ content ++ ['\n', ':', ':', ':']

/-- An option value that is missing or blank: `undefined`, `null`, or a string
of nothing but white space and line terminators (the empty string included). -/
def isBlankOption : JSValue → Bool
  | JSValue.string s => s.all isSpaceClass
  | _ => true

/-- The rewriting of one line in the words of the specification: a line that
starts with the marker and one space becomes the fenced block around what
follows the space; any other line is kept. -/
def rewriteLine (marker styleName line : JSString) : JSString :=
  if (marker ++ [' ']).isPrefixOf line
  then fencedBlock styleName (line.drop (marker.length + 1))
  else line

/-- A line of one of two simple kinds: free of line terminators, and either
the marker, one space and a non-empty content that does not start with white
space, or a line that does not start with the marker. -/
def SimpleLine (marker line : JSString) : Prop :=
  (∀ x ∈ line, isLineTerminator x = false) ∧
  ((∃ a t, line = marker ++ ' ' :: a :: t ∧ isSpaceClass a = false) ∨ ¬ marker <+: line)

/-- A simple line whose content, when it has one, does not start with the
marker again. -/
def StableLine (marker line : JSString) : Prop :=
  (∀ x ∈ line, isLineTerminator x = false) ∧
  ((∃ a t, line = marker ++ ' ' :: a :: t ∧ isSpaceClass a = false ∧ ¬ marker <+: a :: t)
    ∨ ¬ marker <+: line)

/-- An option value that is missing or blank after trimming: `undefined`,
`null`, or a string whose trimmed form is empty. -/
def isMissingOrBlank : JSValue → Bool
  | JSValue.string s => (trim s).isEmpty
  | _ => true

/-- The value an option has when the host takes it from the defaults of a
description: the default of the first option with that id, `undefined` when
there is none. -/
def defaultValue (d : StepDescription) (id : JSString) : JSValue :=
  match d.options.find? (fun o => o.id == id) with
  | some o => JSValue.string o.default
  | none => JSValue.undefined

/-- The configuration made of the defaults of a description. -/
def defaultContext (d : StepDescription) : Context :=
  { marker := defaultValue d "marker".toList, styleName := defaultValue d "styleName".toList }

/-- A token of an escaped pattern: one character that is not a syntax
character, or a backslash followed by one syntax character. -/
def IsEscapeToken (t : JSString) : Prop :=
  (∃ c, t = [c] ∧ isSyntaxCharacter c = false)
    ∨ (∃ c, t = ['\\', c] ∧ isSyntaxCharacter c = true)

/-- The character that a token denotes: the character itself, or the one
after the backslash. -/
def tokenChar : JSString → Option Char
  | [c] => some c
  | [_, c] => some c
  | _ => none

/-! ## Auxiliary definitions for the proofs -/

/-- What escaping does to one character: a syntax character gets a backslash
in front, any other character is kept. -/
def escapeChar (c : Char) : JSString :=
  if isSyntaxCharacter c then ['\\', c] else [c]

/-- The terms of the generated pattern: `^`, the marker character by
character, `\s+`, `(`, `.*`, `)`, `$`. -/
def generatedNodes (marker : JSString) : List Node :=
  Node.lineStart :: (marker.map (fun c => Node.one (CharSet.char c))
    ++ [Node.plus CharSet.space, Node.groupOpen, Node.star CharSet.any, Node.groupClose,
        Node.lineEnd])

/-- The terms of the generated pattern after the marker: `\s+(.*)$`. -/
def tailNodes : List Node :=
  [Node.plus CharSet.space, Node.groupOpen, Node.star CharSet.any, Node.groupClose,
    Node.lineEnd]

/-- The regular expression that `compile` generates for a trimmed marker,
flags `gm`. -/
def generatedRegExp (marker : JSString) : RegExp :=
  { nodes := generatedNodes marker, multiline := true }

/-- The input from its first line terminator on (empty when there is none). -/
def restOfLine (input : JSString) : JSString :=
  input.dropWhile (fun c => !isLineTerminator c)

/-- The input without its leading run of `\s` characters. -/
def skipSpaces (input : JSString) : JSString :=
  input.dropWhile isSpaceClass

/-- The lines that one line is rewritten to: the three lines of the fenced
block for a line that starts with the marker and one space, else the line. -/
def expandLine (marker styleName line : JSString) : List JSString :=
  if (marker ++ [' ']).isPrefixOf line
  then [openingLine styleName, line.drop (marker.length + 1), [':', ':', ':']]
  else [line]

/-! ## Facts about the replacement-template expansion -/

theorem getSubstitutionGo_append_of_no_dollar (matched before after : JSString)
    (caps : List JSString) (a b : JSString) (h : ∀ c ∈ a, c ≠ '$') :
    getSubstitutionGo matched before after caps (a ++ b) 0
      = a ++ getSubstitutionGo matched before after caps b 0 := by
  induction a with
  | nil => rfl
  | cons c t ih =>
    have hc : c ≠ '$' := h c (List.mem_cons_self _ _)
    have ht : ∀ x ∈ t, x ≠ '$' := fun x hx => h x (List.mem_cons_of_mem _ hx)
    simp [getSubstitutionGo, hc, ih ht]

theorem getSubstitutionGo_capture_tail (matched before after c : JSString) :
    getSubstitutionGo matched before after [c] ['$', '1', '\n', ':', ':', ':'] 0
      = c ++ ['\n', ':', ':', ':'] := by
  simp [getSubstitutionGo, substitutionAt, isDigit, digitValue]

theorem getSubstitution_template (matched before after styleName content : JSString)
    (h : ∀ c ∈ styleName, c ≠ '$') :
    getSubstitution matched before after [content] (replacementTemplate styleName)
      = fencedBlock styleName content := by
  have e : replacementTemplate styleName
      = openingLine styleName ++ ['\n'] ++ ['$', '1', '\n', ':', ':', ':'] := by
    simp [replacementTemplate, openingLine]
  have hno : ∀ c ∈ openingLine styleName ++ ['\n'], c ≠ '$' := by
    intro c hc
    simp only [openingLine, List.mem_append, List.mem_cons, List.mem_singleton,
      List.not_mem_nil, or_false] at hc
    rcases hc with (((((hc | hc) | hc) | hc) | hc) | hc)
    · rcases hc with hc | hc | hc | hc | hc | hc | hc | hc | hc | hc | hc | hc | hc | hc | hc
        | hc | hc | hc | hc <;> (rw [hc]; decide)
    · exact h c hc
    · rcases hc with hc | hc | hc <;> (rw [hc]; decide)
    · exact h c hc
    · rw [hc]; decide
    · rw [hc]; decide
  unfold getSubstitution
  rw [e, getSubstitutionGo_append_of_no_dollar _ _ _ _ _ _ hno, getSubstitutionGo_capture_tail]
  simp [fencedBlock]

/-! ## Facts about the replace loop -/

theorem segment_append (a b : JSString) : segment (a ++ b) b = a := by
  simp [segment]

theorem replaceGo_nil_none (re : RegExp) (template before : JSString)
    (h : replacementAt re template before [] = none) :
    replaceGo re template [] 0 before = [] := by
  simp [replaceGo, h]

theorem replaceGo_cons_none (re : RegExp) (template before : JSString) (c : Char)
    (cs : JSString) (h : replacementAt re template before (c :: cs) = none) :
    replaceGo re template (c :: cs) 0 before
      = c :: replaceGo re template cs 0 (before ++ [c]) := by
  simp [replaceGo, h]

theorem replaceGo_cons_some (re : RegExp) (template before : JSString) (c : Char)
    (cs r : JSString) (n : Nat)
    (h : replacementAt re template before (c :: cs) = some (r, n + 1)) :
    replaceGo re template (c :: cs) 0 before
      = r ++ replaceGo re template cs n (before ++ [c]) := by
  simp [replaceGo, h]

theorem replaceGo_skip (re : RegExp) (template : JSString) (xs rest before : JSString) :
    replaceGo re template (xs ++ rest) xs.length before
      = replaceGo re template rest 0 (before ++ xs) := by
  induction xs generalizing before with
  | nil => simp
  | cons c t ih => simp [replaceGo, ih]

/-! ## Facts about `escapeRegExp` -/

theorem escapedCharacters_contains (c : Char) :
    escapedCharacters.contains c = isSyntaxCharacter c := by
  rw [Bool.eq_iff_iff]
  simp [escapedCharacters, isSyntaxCharacter]
  tauto

theorem matchNodes_escapePattern (prev : Option Char) (c : Char) (cs : JSString) :
    matchNodes false escapeRegExpPattern.nodes prev (c :: cs)
      = if isSyntaxCharacter c then some { rest := cs, marks := [] } else none := by
  have h := escapedCharacters_contains c
  simp only [escapeRegExpPattern, matchNodes, CharSet.test, h]

theorem replaceGo_escape (s before : JSString) :
    replaceGo escapeRegExpPattern ['\\', '$', '&'] s 0 before = s.flatMap escapeChar := by
  induction s generalizing before with
  | nil =>
    apply replaceGo_nil_none
    simp [replacementAt, escapeRegExpPattern, matchNodes]
  | cons c cs ih =>
    by_cases hc : isSyntaxCharacter c = true
    · have h : replacementAt escapeRegExpPattern ['\\', '$', '&'] before (c :: cs)
          = some (['\\', c], 0 + 1) := by
        have hm := matchNodes_escapePattern before.getLast? c cs
        simp only [hc, if_true] at hm
        have hseg : segment (c :: cs) cs = [c] := segment_append [c] cs
        simp [replacementAt, escapeRegExpPattern] at hm ⊢
        simp [hm, hseg, getSubstitution, getSubstitutionGo, substitutionAt]
      rw [replaceGo_cons_some _ _ _ _ _ _ _ h, ih]
      simp [List.flatMap_cons, escapeChar, hc]
    · have h : replacementAt escapeRegExpPattern ['\\', '$', '&'] before (c :: cs) = none := by
        have hm := matchNodes_escapePattern before.getLast? c cs
        simp only [hc] at hm
        simp [replacementAt, escapeRegExpPattern] at hm ⊢
        simp [hm]
      rw [replaceGo_cons_none _ _ _ _ _ h, ih]
      simp [List.flatMap_cons, escapeChar, hc]

theorem escapeRegExp_eq_flatMap (s : JSString) : escapeRegExp s = s.flatMap escapeChar :=
  replaceGo_escape s []

/-! ## The generated pattern is accepted and means what it should -/

theorem tokenize_cons_plain (c : Char) (t : JSString) (hc : isSyntaxCharacter c = false) :
    tokenize (c :: t) = (tokenize t).map (fun ts => Token.atom (CharSet.char c) :: ts) := by
  have hc2 := hc
  simp only [isSyntaxCharacter, Bool.or_eq_false_iff, decide_eq_false_iff_not] at hc2
  obtain ⟨⟨⟨⟨⟨⟨⟨⟨⟨⟨⟨⟨⟨h1, h2⟩, h3⟩, h4⟩, h5⟩, h6⟩, h7⟩, h8⟩, h9⟩, h10⟩, h11⟩, h12⟩, h13⟩,
    h14⟩ := hc2
  rw [tokenize.eq_def]
  simp only [h1, h2, h3, h4, h5, h6, h8, h9, hc, if_false, Bool.false_eq_true]

theorem tokenize_cons_escape (e : Char) (t : JSString) (he : isSyntaxCharacter e = true) :
    tokenize ('\\' :: e :: t)
      = (tokenize t).map (fun ts => Token.atom (CharSet.char e) :: ts) := by
  have hs : e ≠ 's' := by
    intro h
    rw [h] at he
    exact absurd he (by decide)
  rw [tokenize.eq_def]
  simp only [hs, he, if_true, if_false]

theorem escapeChar_of_syntax (c : Char) (hc : isSyntaxCharacter c = true) :
    escapeChar c = ['\\', c] := by
  simp [escapeChar, hc]

theorem escapeChar_of_plain (c : Char) (hc : isSyntaxCharacter c = false) :
    escapeChar c = [c] := by
  simp [escapeChar, hc]

theorem tokenize_escaped (s rest : JSString) :
    tokenize (s.flatMap escapeChar ++ rest)
      = (tokenize rest).map (fun ts => s.map (fun c => Token.atom (CharSet.char c)) ++ ts) := by
  induction s with
  | nil => simp
  | cons c t ih =>
    cases hc : isSyntaxCharacter c
    · rw [List.flatMap_cons, escapeChar_of_plain c hc, List.append_assoc, List.singleton_append,
        tokenize_cons_plain _ _ hc, ih]
      cases tokenize rest <;> simp
    · rw [List.flatMap_cons, escapeChar_of_syntax c hc, List.append_assoc, List.cons_append,
        List.singleton_append, tokenize_cons_escape _ _ hc, ih]
      cases tokenize rest <;> simp

theorem buildNodes_marker (s : JSString) :
    buildNodes (s.map (fun c => Token.atom (CharSet.char c))
        ++ [Token.atom CharSet.space, Token.plus, Token.lparen, Token.atom CharSet.any,
            Token.star, Token.rparen, Token.dollar]) false
      = some (s.map (fun c => Node.one (CharSet.char c))
        ++ [Node.plus CharSet.space, Node.groupOpen, Node.star CharSet.any, Node.groupClose,
            Node.lineEnd]) := by
  induction s with
  | nil => simp [buildNodes]
  | cons c t ih =>
    cases t with
    | nil => simp [buildNodes]
    | cons d t2 =>
      simp only [List.map_cons, List.cons_append] at ih ⊢
      simp [buildNodes, ih]

theorem construct_patternSource (marker : JSString) :
    RegExp.construct (patternSource marker) true
      = some { nodes := generatedNodes marker, multiline := true } := by
  have ht : tokenize ['\\', 's', '+', '(', '.', '*', ')', '$']
      = some [Token.atom CharSet.space, Token.plus, Token.lparen, Token.atom CharSet.any,
            Token.star, Token.rparen, Token.dollar] := by
    simp [tokenize, isSyntaxCharacter]
  have h1 : tokenize (patternSource marker)
      = some (Token.caret :: (marker.map (fun c => Token.atom (CharSet.char c))
        ++ [Token.atom CharSet.space, Token.plus, Token.lparen, Token.atom CharSet.any,
            Token.star, Token.rparen, Token.dollar])) := by
    simp only [patternSource, escapeRegExp_eq_flatMap, List.cons_append, List.nil_append,
      List.append_assoc]
    rw [tokenize.eq_def]
    simp [tokenize_escaped, ht]
  simp only [RegExp.construct, h1, buildNodes, buildNodes_marker, Option.map_some',
    generatedNodes]

/-! ## What the generated pattern matches -/

theorem matchNodes_lineStart (ml : Bool) (ns : List Node) (prev : Option Char)
    (input : JSString) :
    matchNodes ml (Node.lineStart :: ns) prev input
      = if atLineStart ml prev then matchNodes ml ns prev input else none := rfl

theorem matchNodes_lineEnd (ml : Bool) (ns : List Node) (prev : Option Char)
    (input : JSString) :
    matchNodes ml (Node.lineEnd :: ns) prev input
      = if atLineEnd ml input then matchNodes ml ns prev input else none := rfl

theorem matchNodes_one_cons (ml : Bool) (s : CharSet) (ns : List Node) (prev : Option Char)
    (c : Char) (cs : JSString) :
    matchNodes ml (Node.one s :: ns) prev (c :: cs)
      = if s.test c then matchNodes ml ns (some c) cs else none := rfl

theorem matchNodes_star (ml : Bool) (s : CharSet) (ns : List Node) (prev : Option Char)
    (input : JSString) :
    matchNodes ml (Node.star s :: ns) prev input = starLoop s (matchNodes ml ns) prev input :=
  rfl

theorem matchNodes_plus_cons (ml : Bool) (s : CharSet) (ns : List Node) (prev : Option Char)
    (c : Char) (cs : JSString) :
    matchNodes ml (Node.plus s :: ns) prev (c :: cs)
      = if s.test c then starLoop s (matchNodes ml ns) (some c) cs else none := rfl

theorem matchNodes_groupOpen (ml : Bool) (ns : List Node) (prev : Option Char)
    (input : JSString) :
    matchNodes ml (Node.groupOpen :: ns) prev input
      = (matchNodes ml ns prev input).map
          (fun r => { rest := r.rest, marks := input :: r.marks }) := rfl

theorem matchNodes_groupClose (ml : Bool) (ns : List Node) (prev : Option Char)
    (input : JSString) :
    matchNodes ml (Node.groupClose :: ns) prev input
      = (matchNodes ml ns prev input).map
          (fun r => { rest := r.rest, marks := input :: r.marks }) := rfl

theorem matchNodes_close_end (prev : Option Char) (input : JSString) :
    matchNodes true [Node.groupClose, Node.lineEnd] prev input
      = if atLineEnd true input then some { rest := input, marks := [input] } else none := by
  rw [matchNodes_groupClose, matchNodes_lineEnd]
  split <;> simp [matchNodes]

theorem starLoop_cons (s : CharSet) (k : Option Char → JSString → Option MatchState)
    (prev : Option Char) (c : Char) (cs : JSString) :
    starLoop s k prev (c :: cs)
      = if s.test c then
          match starLoop s k (some c) cs with
          | some r => some r
          | none => k prev (c :: cs)
        else k prev (c :: cs) := rfl

theorem starLoop_nil (s : CharSet) (k : Option Char → JSString → Option MatchState)
    (prev : Option Char) : starLoop s k prev [] = k prev [] := rfl

theorem starLoop_any_tail (prev : Option Char) (input : JSString) :
    starLoop CharSet.any (matchNodes true [Node.groupClose, Node.lineEnd]) prev input
      = some { rest := restOfLine input, marks := [restOfLine input] } := by
  induction input generalizing prev with
  | nil => simp [starLoop_nil, matchNodes_close_end, atLineEnd, restOfLine]
  | cons c cs ih =>
    rw [starLoop_cons, ih]
    cases hc : isLineTerminator c
    · simp [CharSet.test, hc, restOfLine, List.dropWhile_cons]
    · simp [CharSet.test, hc, matchNodes_close_end, atLineEnd, restOfLine, List.dropWhile_cons]

theorem matchNodes_group (prev : Option Char) (input : JSString) :
    matchNodes true [Node.groupOpen, Node.star CharSet.any, Node.groupClose, Node.lineEnd]
        prev input
      = some { rest := restOfLine input, marks := [input, restOfLine input] } := by
  rw [matchNodes_groupOpen, matchNodes_star, starLoop_any_tail]
  rfl

theorem starLoop_space_group (prev : Option Char) (input : JSString) :
    starLoop CharSet.space
        (matchNodes true
          [Node.groupOpen, Node.star CharSet.any, Node.groupClose, Node.lineEnd]) prev input
      = some { rest := restOfLine (skipSpaces input),
               marks := [skipSpaces input, restOfLine (skipSpaces input)] } := by
  induction input generalizing prev with
  | nil => simp [starLoop_nil, matchNodes_group, skipSpaces]
  | cons c cs ih =>
    rw [starLoop_cons, ih]
    cases hc : isSpaceClass c
    · simp [CharSet.test, hc, matchNodes_group, skipSpaces, List.dropWhile_cons]
    · simp [CharSet.test, hc, skipSpaces, List.dropWhile_cons]

theorem matchNodes_tail_nil (prev : Option Char) :
    matchNodes true tailNodes prev [] = none := rfl

theorem matchNodes_tail_cons (prev : Option Char) (c : Char) (cs : JSString) :
    matchNodes true tailNodes prev (c :: cs)
      = if isSpaceClass c then
          some { rest := restOfLine (skipSpaces cs),
                 marks := [skipSpaces cs, restOfLine (skipSpaces cs)] }
        else none := by
  rw [tailNodes, matchNodes_plus_cons, starLoop_space_group]
  rfl

theorem matchNodes_marker_append (ns : List Node) (m x : JSString) (prev : Option Char)
    (hns : ∀ p q y, matchNodes true ns p y = matchNodes true ns q y) :
    matchNodes true (m.map (fun c => Node.one (CharSet.char c)) ++ ns) prev (m ++ x)
      = matchNodes true ns none x := by
  induction m generalizing prev with
  | nil => exact hns _ _ _
  | cons c t ih =>
    rw [List.map_cons, List.cons_append, List.cons_append, matchNodes_one_cons, ih]
    simp [CharSet.test]

theorem matchNodes_marker_not_prefix (ns : List Node) (m input : JSString)
    (prev : Option Char) (h : ¬ m <+: input) :
    matchNodes true (m.map (fun c => Node.one (CharSet.char c)) ++ ns) prev input = none := by
  induction m generalizing prev input with
  | nil => exact absurd List.nil_prefix h
  | cons c t ih =>
    cases input with
    | nil => rfl
    | cons d u =>
      rw [List.map_cons, List.cons_append, matchNodes_one_cons]
      by_cases hd : d = c
      · subst hd
        have : ¬ t <+: u := fun hp => h ((List.prefix_cons_inj d).2 hp)
        simp [CharSet.test, ih _ _ this]
      · simp [CharSet.test, hd]

theorem matchNodes_tail_prev (p q : Option Char) (y : JSString) :
    matchNodes true tailNodes p y = matchNodes true tailNodes q y := by
  cases y with
  | nil => simp [matchNodes_tail_nil]
  | cons c cs => simp [matchNodes_tail_cons]

theorem generatedNodes_eq (m : JSString) :
    generatedNodes m
      = Node.lineStart :: (m.map (fun c => Node.one (CharSet.char c)) ++ tailNodes) := rfl

theorem generated_not_lineStart (m input : JSString) (prev : Option Char)
    (h : atLineStart true prev = false) :
    matchNodes true (generatedNodes m) prev input = none := by
  simp [generatedNodes_eq, matchNodes_lineStart, h]

theorem generated_not_prefix (m input : JSString) (prev : Option Char) (h : ¬ m <+: input) :
    matchNodes true (generatedNodes m) prev input = none := by
  rw [generatedNodes_eq, matchNodes_lineStart, matchNodes_marker_not_prefix tailNodes m input prev h]
  simp

theorem generated_no_space (m x : JSString) (prev : Option Char)
    (h : ∀ c t, x = c :: t → isSpaceClass c = false) :
    matchNodes true (generatedNodes m) prev (m ++ x) = none := by
  rw [generatedNodes_eq, matchNodes_lineStart,
    matchNodes_marker_append tailNodes m x prev matchNodes_tail_prev]
  have h2 : matchNodes true tailNodes none x = none := by
    cases x with
    | nil => exact matchNodes_tail_nil _
    | cons c cs => simp [matchNodes_tail_cons, h c cs rfl]
  simp [h2]

theorem generated_match (m cs : JSString) (c : Char) (prev : Option Char)
    (hp : atLineStart true prev = true) (hc : isSpaceClass c = true) :
    matchNodes true (generatedNodes m) prev (m ++ c :: cs)
      = some { rest := restOfLine (skipSpaces cs),
               marks := [skipSpaces cs, restOfLine (skipSpaces cs)] } := by
  rw [generatedNodes_eq, matchNodes_lineStart,
    matchNodes_marker_append tailNodes m (c :: cs) prev matchNodes_tail_prev,
    matchNodes_tail_cons]
  simp [hp, hc]

/-! ## The replace loop under the generated pattern -/

theorem skipSpaces_append (w y : JSString) (hw : ∀ c ∈ w, isSpaceClass c = true)
    (hy : ∀ c t, y = c :: t → isSpaceClass c = false) : skipSpaces (w ++ y) = y := by
  induction w with
  | nil =>
    cases y with
    | nil => rfl
    | cons c t => simp [skipSpaces, List.dropWhile_cons, hy c t rfl]
  | cons a w ih =>
    have ha : isSpaceClass a = true := hw a (List.mem_cons_self _ _)
    have := ih (fun c hc => hw c (List.mem_cons_of_mem _ hc))
    simpa [skipSpaces, List.dropWhile_cons, ha] using this

theorem restOfLine_append (c rest : JSString) (hc : ∀ x ∈ c, isLineTerminator x = false)
    (hr : atLineEnd true rest = true) : restOfLine (c ++ rest) = rest := by
  induction c with
  | nil =>
    cases rest with
    | nil => rfl
    | cons t r =>
      have : isLineTerminator t = true := by simpa [atLineEnd] using hr
      simp [restOfLine, List.dropWhile_cons, this]
  | cons a c ih =>
    have ha : isLineTerminator a = false := hc a (List.mem_cons_self _ _)
    have := ih (fun x hx => hc x (List.mem_cons_of_mem _ hx))
    simpa [restOfLine, List.dropWhile_cons, ha] using this

theorem prefix_of_prefix_append_line (m line rest : JSString)
    (hm : ∀ x ∈ m, isLineTerminator x = false) (hr : atLineEnd true rest = true)
    (h : m <+: line ++ rest) : m <+: line := by
  induction line generalizing m with
  | nil =>
    cases m with
    | nil => exact List.prefix_refl _
    | cons a m2 =>
      cases rest with
      | nil => simp at h
      | cons t r =>
        have ht : isLineTerminator t = true := by simpa [atLineEnd] using hr
        have ha : isLineTerminator a = false := hm a (List.mem_cons_self _ _)
        rw [List.nil_append, List.prefix_cons_iff] at h
        rcases h with h | ⟨u, hu, _⟩
        · exact absurd h (List.cons_ne_nil _ _)
        · have : a = t := (List.cons.inj hu).1
          rw [this, ht] at ha
          exact absurd ha (by decide)
  | cons c l ih =>
    cases m with
    | nil => exact List.nil_prefix
    | cons a m2 =>
      rw [List.cons_append, List.prefix_cons_iff] at h
      rcases h with h | ⟨u, hu, hp⟩
      · exact absurd h (List.cons_ne_nil _ _)
      · obtain ⟨h1, h2⟩ := List.cons.inj hu
        subst h1
        subst h2
        exact (List.prefix_cons_inj a).2
          (ih m2 (fun x hx => hm x (List.mem_cons_of_mem _ hx)) hp)

theorem replacementAt_none (re : RegExp) (template before input : JSString)
    (h : matchNodes re.multiline re.nodes before.getLast? input = none) :
    replacementAt re template before input = none := by
  simp [replacementAt, h]

theorem replaceGo_inside_line (m template xs rest before : JSString)
    (hx : ∀ c ∈ xs, isLineTerminator c = false)
    (hb : atLineStart true before.getLast? = false) :
    replaceGo (generatedRegExp m) template (xs ++ rest) 0 before
      = xs ++ replaceGo (generatedRegExp m) template rest 0 (before ++ xs) := by
  induction xs generalizing before with
  | nil => simp
  | cons c t ih =>
    have hc : isLineTerminator c = false := hx c (List.mem_cons_self _ _)
    have hnone : replacementAt (generatedRegExp m) template before (c :: (t ++ rest)) = none :=
      replacementAt_none _ _ _ _ (generated_not_lineStart m _ _ hb)
    have hb2 : atLineStart true (before ++ [c]).getLast? = false := by
      simp [atLineStart, hc]
    rw [List.cons_append, replaceGo_cons_none _ _ _ _ _ hnone,
      ih _ (fun x hx2 => hx x (List.mem_cons_of_mem _ hx2)) hb2]
    simp

theorem replaceGo_unmatched_line (m template line rest before : JSString)
    (hl : ∀ c ∈ line, isLineTerminator c = false)
    (hfail : matchNodes true (generatedNodes m) before.getLast? (line ++ rest) = none) :
    replaceGo (generatedRegExp m) template (line ++ rest) 0 before
      = line ++ replaceGo (generatedRegExp m) template rest 0 (before ++ line) := by
  cases line with
  | nil => simp
  | cons c t =>
    have hc : isLineTerminator c = false := hl c (List.mem_cons_self _ _)
    have hnone : replacementAt (generatedRegExp m) template before (c :: (t ++ rest)) = none :=
      replacementAt_none _ _ _ _ hfail
    have hb2 : atLineStart true (before ++ [c]).getLast? = false := by
      simp [atLineStart, hc]
    rw [List.cons_append, replaceGo_cons_none _ _ _ _ _ hnone,
      replaceGo_inside_line m template t rest _
        (fun x hx2 => hl x (List.mem_cons_of_mem _ hx2)) hb2]
    simp

theorem replaceGo_terminator (m template rest before : JSString) (t : Char)
    (hm : m ≠ []) (hmt : ∀ x ∈ m, isLineTerminator x = false)
    (ht : isLineTerminator t = true) :
    replaceGo (generatedRegExp m) template (t :: rest) 0 before
      = t :: replaceGo (generatedRegExp m) template rest 0 (before ++ [t]) := by
  apply replaceGo_cons_none
  apply replacementAt_none
  apply generated_not_prefix
  intro hp
  cases m with
  | nil => exact hm rfl
  | cons a m2 =>
    rw [List.prefix_cons_iff] at hp
    rcases hp with hp | ⟨u, hu, _⟩
    · exact absurd hp (List.cons_ne_nil _ _)
    · have ha : isLineTerminator a = false := hmt a (List.mem_cons_self _ _)
      have : a = t := (List.cons.inj hu).1
      rw [this, ht] at ha
      exact absurd ha (by decide)

theorem replaceGo_end (m template before : JSString) (hm : m ≠ []) :
    replaceGo (generatedRegExp m) template [] 0 before = [] := by
  apply replaceGo_nil_none
  apply replacementAt_none
  apply generated_not_prefix
  intro hp
  exact hm (List.prefix_nil.1 hp)

theorem replaceGo_match (re : RegExp) (template full rest before : JSString)
    (marks : List JSString) (hf : full ≠ [])
    (h : matchNodes re.multiline re.nodes before.getLast? (full ++ rest)
      = some { rest := rest, marks := marks }) :
    replaceGo re template (full ++ rest) 0 before
      = getSubstitution full before rest (captures marks) template
        ++ replaceGo re template rest 0 (before ++ full) := by
  cases full with
  | nil => exact absurd rfl hf
  | cons a f =>
    have hr : replacementAt re template before (a :: (f ++ rest))
        = some (getSubstitution (a :: f) before rest (captures marks) template,
            f.length + 1) := by
      have hseg : segment (a :: (f ++ rest)) rest = a :: f := segment_append (a :: f) rest
      have hlen : (a :: (f ++ rest)).length - rest.length = f.length + 1 := by
        simp only [List.length_cons, List.length_append]
        omega
      rw [List.cons_append] at h
      simp only [replacementAt, h, hseg, hlen]
    rw [List.cons_append, replaceGo_cons_some _ _ _ _ _ _ _ hr, replaceGo_skip]
    simp

theorem replaceGo_marked_line (m template w c rest before : JSString)
    (hb : atLineStart true before.getLast? = true) (hw : w ≠ [])
    (hws : ∀ x ∈ w, isSpaceClass x = true)
    (hc : ∀ x ∈ c, isLineTerminator x = false)
    (hc0 : ∀ a t, c = a :: t → isSpaceClass a = false)
    (hr : atLineEnd true rest = true) (hcr : c = [] → rest = []) :
    replaceGo (generatedRegExp m) template (m ++ w ++ c ++ rest) 0 before
      = getSubstitution (m ++ w ++ c) before rest [c] template
        ++ replaceGo (generatedRegExp m) template rest 0 (before ++ (m ++ w ++ c)) := by
  cases w with
  | nil => exact absurd rfl hw
  | cons a w2 =>
    have ha : isSpaceClass a = true := hws a (List.mem_cons_self _ _)
    have hskip : skipSpaces (w2 ++ (c ++ rest)) = c ++ rest := by
      apply skipSpaces_append _ _ (fun x hx => hws x (List.mem_cons_of_mem _ hx))
      intro x t hxt
      cases c with
      | nil =>
        rw [hcr rfl] at hxt
        exact absurd hxt (by simp)
      | cons b c2 =>
        have : b = x := (List.cons.inj hxt).1
        rw [← this]
        exact hc0 b c2 rfl
    have hrest : restOfLine (c ++ rest) = rest := restOfLine_append c rest hc hr
    have hmatch := generated_match m (w2 ++ (c ++ rest)) a before.getLast? hb ha
    rw [hskip, hrest] at hmatch
    have hcap : captures [c ++ rest, rest] = [c] := by
      simp [captures, segment_append]
    have hne : m ++ a :: w2 ++ c ≠ [] := by simp
    have heq : m ++ a :: w2 ++ c ++ rest = m ++ a :: (w2 ++ (c ++ rest)) := by simp
    have h := replaceGo_match (generatedRegExp m) template (m ++ a :: w2 ++ c) rest before
      [c ++ rest, rest] hne (by rw [heq]; exact hmatch)
    rw [hcap] at h
    exact h

theorem intercalate_singleton (sep x : JSString) : List.intercalate sep [x] = x := by
  simp [List.intercalate, List.intersperse]

theorem intercalate_cons_cons (sep x y : JSString) (ys : List JSString) :
    List.intercalate sep (x :: y :: ys) = x ++ sep ++ List.intercalate sep (y :: ys) := by
  simp [List.intercalate, List.intersperse]

theorem rewriteLine_marked (m styleName c : JSString) :
    rewriteLine m styleName (m ++ ' ' :: c) = fencedBlock styleName c := by
  have hp : (m ++ [' ']).isPrefixOf (m ++ ' ' :: c) = true := by
    rw [List.isPrefixOf_iff_prefix]
    exact ⟨c, by simp⟩
  have hd : (m ++ ' ' :: c).drop (m.length + 1) = c := by
    have : m ++ ' ' :: c = (m ++ [' ']) ++ c := by simp
    rw [this]
    exact List.drop_left' (by simp)
  simp only [rewriteLine, hp, if_true, hd]

theorem rewriteLine_plain (m styleName line : JSString) (h : ¬ m <+: line) :
    rewriteLine m styleName line = line := by
  have hp : (m ++ [' ']).isPrefixOf line = false := by
    rw [Bool.eq_false_iff]
    intro hp
    rw [List.isPrefixOf_iff_prefix] at hp
    exact h (List.IsPrefix.trans (List.prefix_append m [' ']) hp)
  simp [rewriteLine, hp]

theorem replaceGo_simple_line (m styleName line rest before : JSString)
    (hm : ∀ x ∈ m, isLineTerminator x = false)
    (hs : ∀ x ∈ styleName, x ≠ '$')
    (hb : atLineStart true before.getLast? = true)
    (hl : SimpleLine m line) (hr : atLineEnd true rest = true) :
    replaceGo (generatedRegExp m) (replacementTemplate styleName) (line ++ rest) 0 before
      = rewriteLine m styleName line
        ++ replaceGo (generatedRegExp m) (replacementTemplate styleName) rest 0
            (before ++ line) := by
  obtain ⟨hlt, hkind⟩ := hl
  rcases hkind with ⟨a, t, hlc, ha⟩ | hnp
  · subst hlc
    have hcl : ∀ x ∈ a :: t, isLineTerminator x = false :=
      fun x hx => hlt x (List.mem_append_right _ (List.mem_cons_of_mem _ hx))
    have hc0 : ∀ b u, a :: t = b :: u → isSpaceClass b = false := by
      intro b u hbu
      rw [← (List.cons.inj hbu).1]
      exact ha
    have h := replaceGo_marked_line m (replacementTemplate styleName) [' '] (a :: t) rest
      before hb (by simp) (by intro x hx; rw [List.mem_singleton.1 hx]; decide) hcl hc0 hr
      (fun h0 => absurd h0 (List.cons_ne_nil _ _))
    rw [getSubstitution_template _ _ _ _ _ hs] at h
    rw [rewriteLine_marked]
    simpa using h
  · rw [rewriteLine_plain _ _ _ hnp]
    apply replaceGo_unmatched_line _ _ _ _ _ hlt
    apply generated_not_prefix
    intro hp
    exact hnp (prefix_of_prefix_append_line m line rest hm hr hp)

theorem replaceGo_simple_lines (m styleName : JSString) (lines : List JSString)
    (before : JSString) (hm0 : m ≠ [])
    (hm : ∀ x ∈ m, isLineTerminator x = false)
    (hs : ∀ x ∈ styleName, x ≠ '$')
    (hb : atLineStart true before.getLast? = true)
    (hl : ∀ l ∈ lines, SimpleLine m l) :
    replaceGo (generatedRegExp m) (replacementTemplate styleName)
        (List.intercalate ['\n'] lines) 0 before
      = List.intercalate ['\n'] (lines.map (rewriteLine m styleName)) := by
  induction lines generalizing before with
  | nil => exact replaceGo_end m _ _ hm0
  | cons l ls ih =>
    have hl1 : SimpleLine m l := hl l (List.mem_cons_self _ _)
    have hls : ∀ x ∈ ls, SimpleLine m x := fun x hx => hl x (List.mem_cons_of_mem _ hx)
    cases ls with
    | nil =>
      have h := replaceGo_simple_line m styleName l [] before hm hs hb hl1 rfl
      rw [List.append_nil, replaceGo_end m _ _ hm0, List.append_nil] at h
      simpa [intercalate_singleton] using h
    | cons l2 ls2 =>
      have hstart : atLineStart true (before ++ l ++ ['\n']).getLast? = true := by
        simp [atLineStart, isLineTerminator]
      have h := replaceGo_simple_line m styleName l
        ('\n' :: List.intercalate ['\n'] (l2 :: ls2)) before hm hs hb hl1
        (by simp [atLineEnd, isLineTerminator])
      rw [replaceGo_terminator m _ _ _ '\n' hm0 hm (by decide), ih _ hstart hls] at h
      rw [List.map_cons, List.map_cons, intercalate_cons_cons, intercalate_cons_cons]
      rw [List.map_cons] at h
      simpa using h

/-! ## The script as a whole -/

theorem compile_valid (input : List Scene) (marker styleName : JSString)
    (hm : trim marker ≠ []) (hs : trim styleName ≠ []) :
    compile input { marker := JSValue.string marker, styleName := JSValue.string styleName }
      = Except.ok
          { warnings := []
            scenes := input.map
              (compileScene (generatedRegExp (trim marker))
                (replacementTemplate (trim styleName))) } := by
  simp [compile, optionalTrim, hm, hs, construct_patternSource, generatedRegExp]

theorem compileScene_string (re : RegExp) (template s : JSString)
    (attributes : List (JSString × JSValue)) (hs : s ≠ []) :
    compileScene re template { contents := JSValue.string s, attributes := attributes }
      = { contents := JSValue.string (replaceAll re template s), attributes := attributes } := by
  simp [compileScene, truthy, hs]

theorem compile_scene_at (input : List Scene) (marker styleName : JSString) (i : Nat)
    (scene : Scene) (hm : trim marker ≠ []) (hs : trim styleName ≠ [])
    (hi : input[i]? = some scene) :
    ∃ r, compile input
        { marker := JSValue.string marker, styleName := JSValue.string styleName }
          = Except.ok r
      ∧ r.warnings = []
      ∧ r.scenes[i]? = some (compileScene (generatedRegExp (trim marker))
          (replacementTemplate (trim styleName)) scene) := by
  refine ⟨_, compile_valid input marker styleName hm hs, rfl, ?_⟩
  simp [List.getElem?_map, hi]

theorem dropWhile_eq_nil_of_all (p : Char → Bool) (s : JSString) (h : s.all p = true) :
    s.dropWhile p = [] := by
  induction s with
  | nil => rfl
  | cons c t ih =>
    simp only [List.all_cons, Bool.and_eq_true] at h
    simp [List.dropWhile_cons, h.1, ih h.2]

theorem trim_eq_nil_of_all (s : JSString) (h : s.all isSpaceClass = true) : trim s = [] := by
  simp [trim, trimEnd, trimStart, dropWhile_eq_nil_of_all _ _ h]

theorem dropWhile_eq_self_of_none (p : Char → Bool) (s : JSString)
    (h : ∀ x ∈ s, p x = false) : s.dropWhile p = s := by
  cases s with
  | nil => rfl
  | cons c t => simp [List.dropWhile_cons, h c (List.mem_cons_self _ _)]

theorem trim_eq_self_of_no_space (s : JSString) (h : ∀ x ∈ s, isSpaceClass x = false) :
    trim s = s := by
  have h2 : ∀ x ∈ s.reverse, isSpaceClass x = false := fun x hx => h x (List.mem_reverse.1 hx)
  simp [trim, trimEnd, trimStart, dropWhile_eq_self_of_none _ _ h,
    dropWhile_eq_self_of_none _ _ h2]

theorem compile_blank (input : List Scene) (context : Context)
    (h : isBlankOption context.marker = true ∨ isBlankOption context.styleName = true) :
    compile input context = Except.ok { warnings := [warningMessage], scenes := input } := by
  obtain ⟨mk, st⟩ := context
  cases mk with
  | undefined => cases st <;> rfl
  | null => cases st <;> rfl
  | string m =>
    cases st with
    | undefined => rfl
    | null => rfl
    | string s =>
      have hor : trim m = [] ∨ trim s = [] := by
        rcases h with h | h
        · exact Or.inl (trim_eq_nil_of_all m h)
        · exact Or.inr (trim_eq_nil_of_all s h)
      simp only [compile, optionalTrim, hor, if_true]

theorem compileScene_falsy (re : RegExp) (template : JSString) (scene : Scene)
    (h : truthy scene.contents = false) : compileScene re template scene = scene := by
  obtain ⟨c, a⟩ := scene
  cases c with
  | undefined => rfl
  | null => rfl
  | string s => simp only [compileScene, h, Bool.false_eq_true, if_false]

theorem compile_scenes (input : List Scene) (context : Context) :
    ∃ r, compile input context = Except.ok r
      ∧ (r.scenes = input
        ∨ ∃ re template, r.scenes = input.map (compileScene re template)) := by
  obtain ⟨mk, st⟩ := context
  cases mk with
  | undefined => exact ⟨_, by cases st <;> rfl, Or.inl rfl⟩
  | null => exact ⟨_, by cases st <;> rfl, Or.inl rfl⟩
  | string m =>
    cases st with
    | undefined => exact ⟨_, rfl, Or.inl rfl⟩
    | null => exact ⟨_, rfl, Or.inl rfl⟩
    | string s =>
      by_cases hor : trim m = [] ∨ trim s = []
      · exact ⟨{ warnings := [warningMessage], scenes := input },
          by simp only [compile, optionalTrim, hor, if_true], Or.inl rfl⟩
      · rw [not_or] at hor
        exact ⟨_, compile_valid input m s hor.1 hor.2, Or.inr ⟨_, _, rfl⟩⟩

theorem replaceAll_simple_lines (m styleName : JSString) (lines : List JSString)
    (hm0 : m ≠ []) (hm : ∀ x ∈ m, isLineTerminator x = false)
    (hs : ∀ x ∈ styleName, x ≠ '$') (hl : ∀ l ∈ lines, SimpleLine m l) :
    replaceAll (generatedRegExp m) (replacementTemplate styleName)
        (List.intercalate ['\n'] lines)
      = List.intercalate ['\n'] (lines.map (rewriteLine m styleName)) :=
  replaceGo_simple_lines m styleName lines [] hm0 hm hs rfl hl

theorem compileScene_simple_lines (m styleName : JSString) (lines : List JSString)
    (attributes : List (JSString × JSValue))
    (hm0 : m ≠ []) (hm : ∀ x ∈ m, isLineTerminator x = false)
    (hs : ∀ x ∈ styleName, x ≠ '$') (hl : ∀ l ∈ lines, SimpleLine m l) :
    compileScene (generatedRegExp m) (replacementTemplate styleName)
        { contents := JSValue.string (List.intercalate ['\n'] lines), attributes := attributes }
      = { contents := JSValue.string
            (List.intercalate ['\n'] (lines.map (rewriteLine m styleName))),
          attributes := attributes } := by
  by_cases he : List.intercalate ['\n'] lines = []
  · have h1 := replaceAll_simple_lines m styleName lines hm0 hm hs hl
    rw [he] at h1
    have h2 : replaceAll (generatedRegExp m) (replacementTemplate styleName) [] = [] :=
      replaceGo_end m _ _ hm0
    rw [h2] at h1
    rw [compileScene_falsy _ _ _ (by simp [truthy, he]), he, ← h1]
  · rw [compileScene_string _ _ _ _ he, replaceAll_simple_lines m styleName lines hm0 hm hs hl]

/-! ## A second pass -/

theorem intercalate_append (sep : JSString) (a b : List JSString) (ha : a ≠ [])
    (hb : b ≠ []) :
    List.intercalate sep (a ++ b) = List.intercalate sep a ++ sep ++ List.intercalate sep b := by
  induction a with
  | nil => exact absurd rfl ha
  | cons x a2 ih =>
    cases a2 with
    | nil =>
      cases b with
      | nil => exact absurd rfl hb
      | cons y ys => simp [intercalate_cons_cons, intercalate_singleton]
    | cons x2 a3 =>
      have h := ih (List.cons_ne_nil _ _)
      rw [List.cons_append, List.cons_append, intercalate_cons_cons, intercalate_cons_cons]
      rw [List.cons_append] at h
      rw [h]
      simp

theorem intercalate_flatMap (sep : JSString) (g : JSString → List JSString)
    (ls : List JSString) (hg : ∀ l, g l ≠ []) :
    List.intercalate sep (ls.flatMap g)
      = List.intercalate sep (ls.map (fun l => List.intercalate sep (g l))) := by
  induction ls with
  | nil => rfl
  | cons l ls2 ih =>
    cases ls2 with
    | nil => simp [intercalate_singleton]
    | cons l2 ls3 =>
      have hne : (l2 :: ls3).flatMap g ≠ [] := by
        rw [List.flatMap_cons]
        intro h
        exact hg l2 (List.append_eq_nil.1 h).1
      rw [List.flatMap_cons, intercalate_append sep _ _ (hg l) hne, ih]
      simp only [List.map_cons, intercalate_cons_cons]

theorem expandLine_ne_nil (m styleName line : JSString) : expandLine m styleName line ≠ [] := by
  unfold expandLine
  split <;> simp

theorem intercalate_expandLine (m styleName line : JSString) :
    List.intercalate ['\n'] (expandLine m styleName line) = rewriteLine m styleName line := by
  unfold expandLine rewriteLine
  split
  · simp [intercalate_cons_cons, intercalate_singleton, fencedBlock]
  · simp [intercalate_singleton]

theorem not_prefix_of_head (m l : JSString) (b : Char) (u : JSString) (hl : l = b :: u)
    (hm0 : m ≠ []) (hm : m.head? ≠ some b) : ¬ m <+: l := by
  intro hp
  cases m with
  | nil => exact hm0 rfl
  | cons c m2 =>
    rw [hl, List.prefix_cons_iff] at hp
    rcases hp with hp | ⟨v, hv, _⟩
    · exact absurd hp (List.cons_ne_nil _ _)
    · apply hm
      rw [(List.cons.inj hv).1]
      rfl

theorem openingLine_no_terminator (styleName : JSString)
    (hs : ∀ x ∈ styleName, isLineTerminator x = false) :
    ∀ x ∈ openingLine styleName, isLineTerminator x = false := by
  intro c hc
  simp only [openingLine, List.mem_append, List.mem_cons, List.mem_singleton,
    List.not_mem_nil, or_false] at hc
  rcases hc with (((hc | hc) | hc) | hc) | hc
  · rcases hc with hc | hc | hc | hc | hc | hc | hc | hc | hc | hc | hc | hc | hc | hc | hc
      | hc | hc | hc | hc <;> (rw [hc]; decide)
  · exact hs c hc
  · rcases hc with hc | hc | hc <;> (rw [hc]; decide)
  · exact hs c hc
  · rw [hc]; decide

theorem expandLine_plain (m styleName line : JSString) (hm0 : m ≠ [])
    (hm : m.head? ≠ some ':') (hs : ∀ x ∈ styleName, isLineTerminator x = false)
    (hl : StableLine m line) :
    ∀ l ∈ expandLine m styleName line,
      (∀ x ∈ l, isLineTerminator x = false) ∧ ¬ m <+: l := by
  obtain ⟨hlt, hkind⟩ := hl
  rcases hkind with ⟨a, t, hlc, _, hnp⟩ | hnp
  · subst hlc
    have hp : (m ++ [' ']).isPrefixOf (m ++ ' ' :: a :: t) = true := by
      rw [List.isPrefixOf_iff_prefix]
      exact ⟨a :: t, by simp⟩
    have hd : (m ++ ' ' :: a :: t).drop (m.length + 1) = a :: t := by
      have : m ++ ' ' :: a :: t = (m ++ [' ']) ++ (a :: t) := by simp
      rw [this]
      exact List.drop_left' (by simp)
    intro l hl
    simp only [expandLine, hp, if_true, hd, List.mem_cons, List.mem_singleton,
      List.not_mem_nil, or_false] at hl
    rcases hl with hl | hl | hl
    · subst hl
      exact ⟨openingLine_no_terminator styleName hs,
        not_prefix_of_head m _ ':' _ rfl hm0 hm⟩
    · subst hl
      exact ⟨fun x hx => hlt x (List.mem_append_right _ (List.mem_cons_of_mem _ hx)), hnp⟩
    · subst hl
      exact ⟨by decide, not_prefix_of_head m _ ':' _ rfl hm0 hm⟩
  · have hp : (m ++ [' ']).isPrefixOf line = false := by
      rw [Bool.eq_false_iff]
      intro hp
      rw [List.isPrefixOf_iff_prefix] at hp
      exact hnp (List.IsPrefix.trans (List.prefix_append m [' ']) hp)
    intro l hl
    simp only [expandLine, hp, Bool.false_eq_true, if_false, List.mem_singleton] at hl
    subst hl
    exact ⟨hlt, hnp⟩

theorem StableLine.simple {m line : JSString} (h : StableLine m line) : SimpleLine m line := by
  obtain ⟨hlt, hkind⟩ := h
  rcases hkind with ⟨a, t, hlc, ha, _⟩ | hnp
  · exact ⟨hlt, Or.inl ⟨a, t, hlc, ha⟩⟩
  · exact ⟨hlt, Or.inr hnp⟩

theorem compileScene_stable (m styleName : JSString) (scene : Scene)
    (hm0 : m ≠ []) (hmt : ∀ x ∈ m, isLineTerminator x = false)
    (hmc : m.head? ≠ some ':')
    (hsd : ∀ x ∈ styleName, x ≠ '$') (hst : ∀ x ∈ styleName, isLineTerminator x = false)
    (hl : ∀ s, scene.contents = JSValue.string s →
      ∃ lines, s = List.intercalate ['\n'] lines ∧ ∀ l ∈ lines, StableLine m l) :
    compileScene (generatedRegExp m) (replacementTemplate styleName)
        (compileScene (generatedRegExp m) (replacementTemplate styleName) scene)
      = compileScene (generatedRegExp m) (replacementTemplate styleName) scene := by
  obtain ⟨c, attributes⟩ := scene
  cases c with
  | undefined => rfl
  | null => rfl
  | string s =>
    obtain ⟨lines, hs, hlines⟩ := hl s rfl
    subst hs
    rw [compileScene_simple_lines m styleName lines attributes hm0 hmt hsd
      (fun l hl2 => (hlines l hl2).simple)]
    have hexp : List.intercalate ['\n'] (lines.map (rewriteLine m styleName))
        = List.intercalate ['\n'] (lines.flatMap (expandLine m styleName)) := by
      rw [intercalate_flatMap _ _ _ (expandLine_ne_nil m styleName)]
      congr 1
      apply List.map_congr_left
      intro l _
      exact (intercalate_expandLine m styleName l).symm
    have hplain : ∀ l ∈ lines.flatMap (expandLine m styleName),
        (∀ x ∈ l, isLineTerminator x = false) ∧ ¬ m <+: l := by
      intro l hl2
      obtain ⟨l0, hl0, hl1⟩ := List.mem_flatMap.1 hl2
      exact expandLine_plain m styleName l0 hm0 hmc hst (hlines l0 hl0) l hl1
    have hmap : (lines.flatMap (expandLine m styleName)).map (rewriteLine m styleName)
        = lines.flatMap (expandLine m styleName) := by
      conv_rhs => rw [← List.map_id (lines.flatMap (expandLine m styleName))]
      apply List.map_congr_left
      intro l hl2
      exact rewriteLine_plain m styleName l (hplain l hl2).2
    rw [hexp, compileScene_simple_lines m styleName _ attributes hm0 hmt hsd
      (fun l hl2 => ⟨(hplain l hl2).1, Or.inr (hplain l hl2).2⟩), hmap]

/-! ## Shape of the result -/

theorem compileScene_attributes (re : RegExp) (template : JSString) (scene : Scene) :
    (compileScene re template scene).attributes = scene.attributes := by
  obtain ⟨c, a⟩ := scene
  cases c with
  | undefined => rfl
  | null => rfl
  | string s =>
    simp only [compileScene]
    split <;> rfl

theorem map_compileScene_attributes (re : RegExp) (template : JSString) (input : List Scene) :
    (input.map (compileScene re template)).map (fun s => s.attributes)
      = input.map (fun s => s.attributes) := by
  rw [List.map_map]
  apply List.map_congr_left
  intro s _
  exact compileScene_attributes re template s

theorem compile_of_blank (input : List Scene) (context : Context)
    (h : isMissingOrBlank context.marker = true ∨ isMissingOrBlank context.styleName = true) :
    compile input context = Except.ok { warnings := [warningMessage], scenes := input } := by
  obtain ⟨mk, st⟩ := context
  cases mk with
  | undefined => cases st <;> rfl
  | null => cases st <;> rfl
  | string m =>
    cases st with
    | undefined => rfl
    | null => rfl
    | string s =>
      have hor : trim m = [] ∨ trim s = [] := by
        simpa [isMissingOrBlank] using h
      simp only [compile, optionalTrim, hor, if_true]

theorem compile_of_not_blank (input : List Scene) (context : Context)
    (hm : isMissingOrBlank context.marker = false)
    (hs : isMissingOrBlank context.styleName = false) :
    ∃ m s, context.marker = JSValue.string m ∧ context.styleName = JSValue.string s
      ∧ trim m ≠ [] ∧ trim s ≠ []
      ∧ compile input context
        = Except.ok
            { warnings := []
              scenes := input.map
                (compileScene (generatedRegExp (trim m)) (replacementTemplate (trim s))) } := by
  obtain ⟨mk, st⟩ := context
  cases mk with
  | undefined => simp [isMissingOrBlank] at hm
  | null => simp [isMissingOrBlank] at hm
  | string m =>
    cases st with
    | undefined => simp [isMissingOrBlank] at hs
    | null => simp [isMissingOrBlank] at hs
    | string s =>
      have h1 : trim m ≠ [] := by simpa [isMissingOrBlank] using hm
      have h2 : trim s ≠ [] := by simpa [isMissingOrBlank] using hs
      exact ⟨m, s, rfl, rfl, h1, h2, compile_valid input m s h1 h2⟩

theorem isSyntaxCharacter_iff_mem (c : Char) :
    isSyntaxCharacter c = true ↔ c ∈ escapedCharacters := by
  rw [← escapedCharacters_contains]
  simp

/-! ## Trimming twice -/

theorem dropWhile_head_not (p : Char → Bool) (l : JSString) (a : Char) (t : JSString)
    (h : l.dropWhile p = a :: t) : p a = false := by
  induction l with
  | nil => simp at h
  | cons c cs ih =>
    cases hc : p c
    · rw [List.dropWhile_cons, hc] at h
      simp only [Bool.false_eq_true, if_false] at h
      rw [← (List.cons.inj h).1]
      exact hc
    · rw [List.dropWhile_cons, hc] at h
      exact ih h

theorem trimEnd_eq_rdropWhile (s : JSString) : trimEnd s = s.rdropWhile isSpaceClass := rfl

theorem trim_trim (s : JSString) : trim (trim s) = trim s := by
  have hpre : trim s <+: s.dropWhile isSpaceClass := by
    rw [trim, trimEnd_eq_rdropWhile, trimStart]
    exact List.rdropWhile_prefix _ _
  have hstart : trimStart (trim s) = trim s := by
    cases ht : trim s with
    | nil => rfl
    | cons a t =>
      rw [ht] at hpre
      obtain ⟨u, hu⟩ := hpre
      have ha : isSpaceClass a = false :=
        dropWhile_head_not isSpaceClass s a (t ++ u) (by rw [← hu]; rfl)
      simp [trimStart, List.dropWhile_cons, ha]
  have hend : trimEnd (trim s) = trim s := by
    rw [trimEnd_eq_rdropWhile]
    conv_lhs => rw [trim, trimEnd_eq_rdropWhile]
    rw [List.rdropWhile_idempotent]
    rfl
  rw [trim, hstart, hend]

/-! ## Contents without the marker -/

theorem replaceGo_no_occurrence (m template input before : JSString)
    (h : ∀ t, t <:+ input → ¬ m <+: t) :
    replaceGo (generatedRegExp m) template input 0 before = input := by
  induction input generalizing before with
  | nil =>
    apply replaceGo_nil_none
    apply replacementAt_none
    exact generated_not_prefix m [] _ (h [] (List.suffix_refl _))
  | cons c cs ih =>
    have hnone : replacementAt (generatedRegExp m) template before (c :: cs) = none :=
      replacementAt_none _ _ _ _ ( generated_not_prefix m _ _ (h _ (List.suffix_refl _)))
    rw [replaceGo_cons_none _ _ _ _ _ hnone, ih]
    intro t ht
    exact h t (List.IsSuffix.trans ht (List.suffix_cons c cs))

/-! ## The shape of a match -/

theorem generated_match_inv (m input : JSString) (prev : Option Char) (r : MatchState)
    (h : matchNodes true (generatedNodes m) prev input = some r) :
    atLineStart true prev = true
      ∧ ∃ c0 cs, input = m ++ c0 :: cs ∧ isSpaceClass c0 = true
        ∧ r = { rest := restOfLine (skipSpaces cs),
                marks := [skipSpaces cs, restOfLine (skipSpaces cs)] } := by
  cases hp : atLineStart true prev
  · rw [generated_not_lineStart m input prev hp] at h
    exact absurd h (by simp)
  · refine ⟨rfl, ?_⟩
    by_cases hpre : m <+: input
    · obtain ⟨x, hx⟩ := hpre
      subst hx
      cases x with
      | nil =>
        rw [generated_no_space m [] prev (fun c t hct => by simp at hct)] at h
        exact absurd h (by simp)
      | cons c0 cs =>
        cases hc : isSpaceClass c0
        · rw [generated_no_space m (c0 :: cs) prev
            (fun c t hct => by rw [← (List.cons.inj hct).1]; exact hc)] at h
          exact absurd h (by simp)
        · rw [generated_match m cs c0 prev hp hc] at h
          exact ⟨c0, cs, rfl, hc, (Option.some.inj h).symm⟩
    · rw [ generated_not_prefix m input prev hpre] at h
      exact absurd h (by simp)

theorem segment_restOfLine (w : JSString) :
    segment w (restOfLine w) = w.takeWhile (fun c => !isLineTerminator c) := by
  have h := segment_append (w.takeWhile (fun c => !isLineTerminator c)) (restOfLine w)
  have hw : w.takeWhile (fun c => !isLineTerminator c) ++ restOfLine w = w := by
    rw [restOfLine, List.takeWhile_append_dropWhile]
  rw [hw] at h
  exact h

theorem takeWhile_append_dropWhile_space (cs : JSString) :
    cs = cs.takeWhile isSpaceClass ++ skipSpaces cs := by
  rw [skipSpaces, List.takeWhile_append_dropWhile]

/-! ## The escaped string as a pattern -/

theorem escapeChar_isEscapeToken (c : Char) : IsEscapeToken (escapeChar c) := by
  cases hc : isSyntaxCharacter c
  · exact Or.inl ⟨c, escapeChar_of_plain c hc, hc⟩
  · exact Or.inr ⟨c, escapeChar_of_syntax c hc, hc⟩

theorem tokenChar_escapeChar (c : Char) : tokenChar (escapeChar c) = some c := by
  cases hc : isSyntaxCharacter c
  · rw [escapeChar_of_plain c hc]; rfl
  · rw [ escapeChar_of_syntax c hc]; rfl

theorem IsEscapeToken.ne_nil {t : JSString} (h : IsEscapeToken t) : t ≠ [] := by
  rcases h with ⟨c, hc, _⟩ | ⟨c, hc, _⟩ <;> (rw [hc]; exact List.cons_ne_nil _ _)

theorem escapeToken_unique (ts us : List JSString) (hts : ∀ t ∈ ts, IsEscapeToken t)
    (hus : ∀ u ∈ us, IsEscapeToken u) (h : ts.flatten = us.flatten) : ts = us := by
  induction ts generalizing us with
  | nil =>
    cases us with
    | nil => rfl
    | cons u us2 =>
      have hu := (hus u (List.mem_cons_self _ _)).ne_nil
      rw [List.flatten_nil, List.flatten_cons] at h
      exact absurd (List.append_eq_nil.1 h.symm).1 hu
  | cons t ts2 ih =>
    cases us with
    | nil =>
      have ht := (hts t (List.mem_cons_self _ _)).ne_nil
      rw [List.flatten_nil, List.flatten_cons] at h
      exact absurd (List.append_eq_nil.1 h).1 ht
    | cons u us2 =>
      have ht := hts t (List.mem_cons_self _ _)
      have hu := hus u (List.mem_cons_self _ _)
      have hsyn : isSyntaxCharacter '\\' = true := by decide
      rw [List.flatten_cons, List.flatten_cons] at h
      have key : t = u ∧ ts2.flatten = us2.flatten := by
        rcases ht with ⟨c, hc, hcs⟩ | ⟨c, hc, hcs⟩ <;>
          rcases hu with ⟨d, hd, hds⟩ | ⟨d, hd, hds⟩
        · rw [hc, hd] at h
          rw [hc, hd]
          simp only [List.cons_append, List.nil_append, List.cons.injEq] at h
          exact ⟨by rw [h.1], h.2⟩
        · rw [hc, hd] at h
          simp only [List.cons_append, List.nil_append, List.cons.injEq] at h
          rw [h.1, hsyn] at hcs
          exact absurd hcs (by decide)
        · rw [hc, hd] at h
          simp only [List.cons_append, List.nil_append, List.cons.injEq] at h
          rw [← h.1, hsyn] at hds
          exact absurd hds (by decide)
        · rw [hc, hd] at h
          rw [hc, hd]
          simp only [List.cons_append, List.nil_append, List.cons.injEq, true_and] at h
          exact ⟨by rw [h.1], h.2⟩
      rw [key.1, ih us2 (fun x hx => hts x (List.mem_cons_of_mem _ hx))
        (fun x hx => hus x (List.mem_cons_of_mem _ hx)) key.2]

theorem buildNodes_atoms (s : JSString) :
    buildNodes (s.map (fun c => Token.atom (CharSet.char c))) false
      = some (s.map (fun c => Node.one (CharSet.char c))) := by
  induction s with
  | nil => simp [buildNodes]
  | cons c t ih =>
    cases t with
    | nil => simp [buildNodes]
    | cons d t2 =>
      simp only [List.map_cons] at ih ⊢
      simp [buildNodes, ih]

theorem construct_escaped (s : JSString) (ml : Bool) :
    RegExp.construct (escapeRegExp s) ml
      = some { nodes := s.map (fun c => Node.one (CharSet.char c)), multiline := ml } := by
  have h := tokenize_escaped s []
  rw [List.append_nil] at h
  have ht : tokenize [] = some [] := rfl
  rw [ht, Option.map_some', List.append_nil] at h
  simp only [RegExp.construct, escapeRegExp_eq_flatMap, h, buildNodes_atoms]

theorem matchNodes_literal (ml : Bool) (s input : JSString) (prev : Option Char) :
    matchNodes ml (s.map (fun c => Node.one (CharSet.char c))) prev input
      = if s <+: input then some { rest := input.drop s.length, marks := [] } else none := by
  induction s generalizing prev input with
  | nil => simp [matchNodes]
  | cons c t ih =>
    cases input with
    | nil => simp [matchNodes]
    | cons d u =>
      rw [List.map_cons, matchNodes_one_cons, ih]
      by_cases hd : d = c
      · subst hd
        simp [CharSet.test, List.prefix_cons_inj]
      · have hnp : ¬ c :: t <+: d :: u := by
          intro hp
          rw [List.prefix_cons_iff] at hp
          rcases hp with hp | ⟨v, hv, _⟩
          · exact absurd hp (List.cons_ne_nil _ _)
          · exact hd (List.cons.inj hv).1.symm
        simp [CharSet.test, hd, hnp]

/-! ## The specification against the script -/

/-- C1 (the code at a failing input): with marker `>r` and style
`RightAligned`, both lines of the contents `>r ` / `>r Hello there` match
`^>r\s+(.*)$`, the first with an empty captured content.  The claim asks for
two fenced blocks.  `compile` writes one block: the run `\s+` goes past the
line terminator and the whole second line becomes the captured content. -/
theorem compile_marked_lines_merged :
    compile [{ contents := JSValue.string ">r \n>r Hello there".toList, attributes := [] }]
        { marker := JSValue.string ">r".toList,
          styleName := JSValue.string "RightAligned".toList }
      = Except.ok
          { warnings := []
            scenes := [{ contents := JSValue.string
                          ("::: \x7bcustom-style=\"RightAligned\" .RightAligned\x7d\n>r Hello there\n:::").toList,
                         attributes := [] }] }
    ∧ ("::: \x7bcustom-style=\"RightAligned\" .RightAligned\x7d\n>r Hello there\n:::").toList
      ≠ fencedBlock "RightAligned".toList [] ++ ['\n']
          ++ fencedBlock "RightAligned".toList "Hello there".toList :=
  ⟨rfl, by decide⟩

/-- C2 (the code at a failing input): with marker `>r` and style
`RightAligned`, neither line of the contents `>r` / `plain text` starts with
the marker followed by white space on that line, so the claim asks for the
contents unchanged.  `compile` rewrites them: the line `>r` disappears into a
block whose content is the next line. -/
theorem compile_bare_marker_line_rewritten :
    compile [{ contents := JSValue.string ">r\nplain text".toList, attributes := [] }]
        { marker := JSValue.string ">r".toList,
          styleName := JSValue.string "RightAligned".toList }
      = Except.ok
          { warnings := []
            scenes := [{ contents := JSValue.string
                          ("::: \x7bcustom-style=\"RightAligned\" .RightAligned\x7d\nplain text\n:::").toList,
                         attributes := [] }] }
    ∧ ("::: \x7bcustom-style=\"RightAligned\" .RightAligned\x7d\nplain text\n:::").toList ≠ ">r\nplain text".toList :=
  ⟨rfl, by decide⟩

/-- C3 (the code at a failing input): with the style name `A$$B` the claim
asks for the opening line `::: {custom-style="A$$B" .A$$B}`.  `compile` writes
`::: {custom-style="A$B" .A$B}`: the style name is pasted into the replacement
template, where `$$` stands for one `$`. -/
theorem compile_style_dollar_expanded :
    compile [{ contents := JSValue.string ">r x".toList, attributes := [] }]
        { marker := JSValue.string ">r".toList, styleName := JSValue.string "A$$B".toList }
      = Except.ok
          { warnings := []
            scenes := [{ contents := JSValue.string
                          "::: \x7bcustom-style=\"A$B\" .A$B\x7d\nx\n:::".toList,
                         attributes := [] }] }
    ∧ "::: \x7bcustom-style=\"A$B\" .A$B\x7d\nx\n:::".toList
      ≠ fencedBlock (trim "A$$B".toList) "x".toList :=
  ⟨rfl, by decide⟩

/-- C4: when the marker or the style name is undefined, null, empty or made
only of white space, `compile` returns the input sequence itself: every scene
and its contents are the original ones. -/
theorem compile_blank_config_returns_input (input : List Scene) (context : Context)
    (h : isBlankOption context.marker = true ∨ isBlankOption context.styleName = true) :
    ∃ r, compile input context = Except.ok r ∧ r.scenes = input :=
  ⟨_, compile_blank input context h, rfl⟩

/-- A blank marker with a scene that would otherwise be rewritten. -/
theorem compile_blank_config_returns_input_witness :
    (isBlankOption (JSValue.string [' ', '\t', ' ']) = true
        ∨ isBlankOption (JSValue.string ['X']) = true)
      ∧ ∃ r, compile [{ contents := JSValue.string ">r Hi".toList, attributes := [] }]
            { marker := JSValue.string [' ', '\t', ' '], styleName := JSValue.string ['X'] }
          = Except.ok r
        ∧ r.scenes = [{ contents := JSValue.string ">r Hi".toList, attributes := [] }] :=
  ⟨Or.inl (by decide),
    compile_blank_config_returns_input _
      { marker := JSValue.string [' ', '\t', ' '], styleName := JSValue.string ['X'] }
      (Or.inl (by decide))⟩

/-- C5 (counterexample): with marker `>r` and style `S`, the contents
`>r >r a` go to a block whose content line is `>r a`; a second pass matches
that line again and wraps it in a second block, so pass 2 differs from
pass 1. -/
theorem compile_twice_differs :
    compile [{ contents := JSValue.string ">r >r a".toList, attributes := [] }]
        { marker := JSValue.string ">r".toList, styleName := JSValue.string "S".toList }
      = Except.ok
          { warnings := []
            scenes := [{ contents := JSValue.string
                          "::: \x7bcustom-style=\"S\" .S\x7d\n>r a\n:::".toList,
                         attributes := [] }] }
    ∧ compile [{ contents := JSValue.string
                  "::: \x7bcustom-style=\"S\" .S\x7d\n>r a\n:::".toList,
                 attributes := [] }]
        { marker := JSValue.string ">r".toList, styleName := JSValue.string "S".toList }
      = Except.ok
          { warnings := []
            scenes := [{ contents := JSValue.string
                          ("::: \x7bcustom-style=\"S\" .S\x7d\n"
                            ++ "::: \x7bcustom-style=\"S\" .S\x7d\na\n:::\n:::").toList,
                         attributes := [] }] }
    ∧ "::: \x7bcustom-style=\"S\" .S\x7d\n>r a\n:::".toList
      ≠ ("::: \x7bcustom-style=\"S\" .S\x7d\n"
          ++ "::: \x7bcustom-style=\"S\" .S\x7d\na\n:::\n:::").toList :=
  ⟨rfl, rfl, by decide⟩

/-- C5 (amended): a second pass changes nothing when no line written by the
first pass starts with the marker.  For a trimmed marker that is non-empty,
free of line terminators and does not start with `:`, a trimmed style name
that is non-empty and free of `$` and of line terminators, and scenes whose
string contents are lines joined by `\n`, each line free of line terminators
and either the marker, one space and a non-empty content that starts neither
with white space nor with the marker, or not starting with the marker:
`compile` applied to its own output returns that output again. -/
theorem compile_twice_stable (input : List Scene) (marker styleName : JSString)
    (hm : trim marker ≠ []) (hmt : ∀ x ∈ trim marker, isLineTerminator x = false)
    (hmc : (trim marker).head? ≠ some ':')
    (hs : trim styleName ≠ []) (hsd : ∀ x ∈ trim styleName, x ≠ '$')
    (hst : ∀ x ∈ trim styleName, isLineTerminator x = false)
    (hl : ∀ scene ∈ input, ∀ s, scene.contents = JSValue.string s →
      ∃ lines, s = List.intercalate ['\n'] lines ∧ ∀ l ∈ lines, StableLine (trim marker) l) :
    ∃ r, compile input
          { marker := JSValue.string marker, styleName := JSValue.string styleName }
          = Except.ok r
      ∧ compile r.scenes
          { marker := JSValue.string marker, styleName := JSValue.string styleName }
          = Except.ok r := by
  refine ⟨_, compile_valid input marker styleName hm hs, ?_⟩
  rw [compile_valid _ marker styleName hm hs, List.map_map]
  congr 2
  apply List.map_congr_left
  intro scene hscene
  exact compileScene_stable (trim marker) (trim styleName) scene hm hmt hmc hsd hst
    (hl scene hscene)

/-- Two scenes, one with three lines and one without contents. -/
theorem compile_twice_stable_witness :
    (trim ">r".toList ≠ [] ∧ (∀ x ∈ trim ">r".toList, isLineTerminator x = false)
      ∧ (trim ">r".toList).head? ≠ some ':'
      ∧ trim "Note".toList ≠ [] ∧ (∀ x ∈ trim "Note".toList, x ≠ '$')
      ∧ (∀ x ∈ trim "Note".toList, isLineTerminator x = false)
      ∧ (∀ l ∈ [">r Hello".toList, "plain".toList, ">r again".toList],
          StableLine (trim ">r".toList) l))
    ∧ ∃ r, compile
          [{ contents := JSValue.string ">r Hello\nplain\n>r again".toList, attributes := [] },
            { contents := JSValue.undefined, attributes := [] }]
          { marker := JSValue.string ">r".toList, styleName := JSValue.string "Note".toList }
          = Except.ok r
      ∧ compile r.scenes
          { marker := JSValue.string ">r".toList, styleName := JSValue.string "Note".toList }
          = Except.ok r :=
  have hlines : ∀ l ∈ [">r Hello".toList, "plain".toList, ">r again".toList],
      StableLine (trim ">r".toList) l := by
    intro l hl
    simp only [List.mem_cons, List.mem_singleton, List.not_mem_nil, or_false] at hl
    rcases hl with hl | hl | hl
    · rw [hl]
      exact ⟨by decide, Or.inl ⟨'H', "ello".toList, by decide, by decide, by decide⟩⟩
    · rw [hl]
      exact ⟨by decide, Or.inr (by decide)⟩
    · rw [hl]
      exact ⟨by decide, Or.inl ⟨'a', "gain".toList, by decide, by decide, by decide⟩⟩
  ⟨⟨by decide, by decide, by decide, by decide, by decide, by decide, hlines⟩,
    compile_twice_stable
      [{ contents := JSValue.string ">r Hello\nplain\n>r again".toList, attributes := [] },
        { contents := JSValue.undefined, attributes := [] }]
      ">r".toList "Note".toList
      (by decide) (by decide) (by decide) (by decide) (by decide) (by decide)
      (by
        intro scene hscene s hs
        simp only [List.mem_cons, List.mem_singleton, List.not_mem_nil, or_false] at hscene
        rcases hscene with hscene | hscene
        · rw [hscene] at hs
          refine ⟨[">r Hello".toList, "plain".toList, ">r again".toList], ?_, hlines⟩
          rw [← JSValue.string.inj hs]
          decide
        · rw [hscene] at hs
          exact absurd hs (by simp))⟩

/-- C6: the marker is matched literally, whatever pattern characters it holds.
For a trimmed marker `m` that is non-empty and free of line terminators, a
style name `S` whose characters are neither white space nor `$` (so every name
of letters and digits), and a content `a :: t` that is free of line
terminators and starts with a character that is not white space, `compile`
called on one scene whose contents are `m`, one space and the content rewrites
the contents to exactly the fenced block `::: {custom-style="S" .S}`, the
content, `:::`, and records no warning.  The input is one scene because the
script rewrites scene objects in place, once for every index of the array at
which the object stands. -/
theorem compile_marker_literal
    (attributes : List (JSString × JSValue)) (marker S t : JSString) (a : Char)
    (hm : trim marker ≠ []) (hmt : ∀ x ∈ trim marker, isLineTerminator x = false)
    (hs : S ≠ []) (hsc : ∀ x ∈ S, isSpaceClass x = false ∧ x ≠ '$')
    (ha : isSpaceClass a = false) (hct : ∀ x ∈ a :: t, isLineTerminator x = false) :
    compile
        [{ contents := JSValue.string (trim marker ++ ' ' :: a :: t),
           attributes := attributes }]
        { marker := JSValue.string marker, styleName := JSValue.string S }
      = Except.ok
          { warnings := []
            scenes := [{ contents := JSValue.string (fencedBlock S (a :: t)),
                         attributes := attributes }] } := by
  have hts : trim S = S := trim_eq_self_of_no_space S (fun x hx => (hsc x hx).1)
  have hline : SimpleLine (trim marker) (trim marker ++ ' ' :: a :: t) := by
    refine ⟨?_, Or.inl ⟨a, t, rfl, ha⟩⟩
    intro x hx
    rcases List.mem_append.1 hx with hx | hx
    · exact hmt x hx
    · rcases List.mem_cons.1 hx with hx | hx
      · rw [hx]; decide
      · exact hct x hx
  have h := compileScene_simple_lines (trim marker) S [trim marker ++ ' ' :: a :: t] attributes
    hm hmt (fun x hx => (hsc x hx).2)
    (by intro l hl; rw [List.mem_singleton.1 hl]; exact hline)
  rw [List.map_singleton, intercalate_singleton, intercalate_singleton, rewriteLine_marked] at h
  rw [compile_valid _ marker S hm (by rw [hts]; exact hs), hts, List.map_singleton, h]

/-- The marker `*`, a quantifier of the pattern dialect, with the line
`* note text` and the style `Note`. -/
theorem compile_marker_literal_witness :
    (trim "*".toList ≠ [] ∧ (∀ x ∈ trim "*".toList, isLineTerminator x = false)
      ∧ "Note".toList ≠ [] ∧ (∀ x ∈ "Note".toList, isSpaceClass x = false ∧ x ≠ '$')
      ∧ isSpaceClass 'n' = false ∧ (∀ x ∈ "note text".toList, isLineTerminator x = false))
    ∧ compile [{ contents := JSValue.string "* note text".toList, attributes := [] }]
          { marker := JSValue.string "*".toList, styleName := JSValue.string "Note".toList }
        = Except.ok
            { warnings := []
              scenes := [{ contents := JSValue.string
                            "::: \x7bcustom-style=\"Note\" .Note\x7d\nnote text\n:::".toList,
                           attributes := [] }] } :=
  ⟨⟨by decide, by decide, by decide, by decide, by decide, by decide⟩,
    compile_marker_literal [] "*".toList "Note".toList "ote text".toList 'n'
      (by decide) (by decide) (by decide) (by decide) (by decide) (by decide)⟩

/-- C7: at least one white-space character must follow the marker.  For a
valid configuration whose trimmed marker `m` is free of line terminators, a
scene whose contents are the single line `m` followed by `a :: t`, where `a`
is not white space and no line terminator occurs, is returned unchanged. -/
theorem compile_marker_abutting_unchanged (input : List Scene) (i : Nat)
    (attributes : List (JSString × JSValue)) (marker styleName t : JSString) (a : Char)
    (hm : trim marker ≠ []) (hmt : ∀ x ∈ trim marker, isLineTerminator x = false)
    (hs : trim styleName ≠ [])
    (ha : isSpaceClass a = false) (hct : ∀ x ∈ a :: t, isLineTerminator x = false)
    (hi : input[i]? = some
      { contents := JSValue.string (trim marker ++ a :: t), attributes := attributes }) :
    ∃ r, compile input
          { marker := JSValue.string marker, styleName := JSValue.string styleName }
          = Except.ok r
      ∧ r.scenes[i]? = some
          { contents := JSValue.string (trim marker ++ a :: t), attributes := attributes } := by
  obtain ⟨r, hr, _, hri⟩ := compile_scene_at input marker styleName i _ hm hs hi
  refine ⟨r, hr, ?_⟩
  have hne : trim marker ++ a :: t ≠ [] := by simp
  have hl : ∀ x ∈ trim marker ++ a :: t, isLineTerminator x = false := by
    intro x hx
    rcases List.mem_append.1 hx with hx | hx
    · exact hmt x hx
    · exact hct x hx
  have hfail : matchNodes true (generatedNodes (trim marker)) ([] : JSString).getLast?
      ((trim marker ++ a :: t) ++ []) = none := by
    rw [List.append_nil]
    apply generated_no_space
    intro b u hbu
    rw [← (List.cons.inj hbu).1]
    exact ha
  have h := replaceGo_unmatched_line (trim marker) (replacementTemplate (trim styleName))
    (trim marker ++ a :: t) [] [] hl hfail
  simp only [replaceGo_end _ _ _ hm, List.append_nil, List.nil_append] at h
  rw [hri, compileScene_string _ _ _ _ hne]
  unfold replaceAll
  rw [h]

/-- The line `>rSomething` with the marker `>r`. -/
theorem compile_marker_abutting_unchanged_witness :
    (trim ">r".toList ≠ [] ∧ (∀ x ∈ trim ">r".toList, isLineTerminator x = false)
      ∧ trim "RightAligned".toList ≠ []
      ∧ isSpaceClass 'S' = false ∧ (∀ x ∈ "Something".toList, isLineTerminator x = false)
      ∧ [({ contents := JSValue.string ">rSomething".toList, attributes := [] } : Scene)][0]?
          = some { contents := JSValue.string (trim ">r".toList ++ "Something".toList),
                   attributes := [] })
    ∧ ∃ r, compile [{ contents := JSValue.string ">rSomething".toList, attributes := [] }]
          { marker := JSValue.string ">r".toList,
            styleName := JSValue.string "RightAligned".toList }
        = Except.ok r
      ∧ r.scenes[0]? = some
          { contents := JSValue.string ">rSomething".toList, attributes := [] } :=
  ⟨⟨by decide, by decide, by decide, by decide, by decide, by decide⟩,
    compile_marker_abutting_unchanged
      [{ contents := JSValue.string ">rSomething".toList, attributes := [] }] 0 []
      ">r".toList "RightAligned".toList "omething".toList 'S'
      (by decide) (by decide) (by decide) (by decide) (by decide) (by decide)⟩

/-- C8: all matching lines of one buffer are rewritten in one pass and the
other lines keep their places.  For a trimmed marker `m` (non-empty, free of
line terminators) and a trimmed style name `S` (non-empty, free of `$`), and
contents that are lines joined by `\n`, each line free of line terminators and
either `m`, one space and a non-empty content not starting with white space,
or not starting with `m`: `compile` called on one scene with these contents
records no warning and the new contents are the same lines joined by `\n`,
each line of the first kind replaced by its fenced block and each line of the
second kind kept (`rewriteLine`).  The input is one scene because the script
rewrites scene objects in place, once for every index of the array at which
the object stands. -/
theorem compile_rewrites_all_lines
    (attributes : List (JSString × JSValue)) (marker styleName : JSString)
    (lines : List JSString)
    (hm : trim marker ≠ []) (hmt : ∀ x ∈ trim marker, isLineTerminator x = false)
    (hs : trim styleName ≠ []) (hsd : ∀ x ∈ trim styleName, x ≠ '$')
    (hl : ∀ l ∈ lines, SimpleLine (trim marker) l) :
    compile
        [{ contents := JSValue.string (List.intercalate ['\n'] lines),
           attributes := attributes }]
        { marker := JSValue.string marker, styleName := JSValue.string styleName }
      = Except.ok
          { warnings := []
            scenes := [{ contents := JSValue.string
                          (List.intercalate ['\n']
                            (lines.map (rewriteLine (trim marker) (trim styleName)))),
                         attributes := attributes }] } := by
  rw [compile_valid _ marker styleName hm hs, List.map_singleton,
    compileScene_simple_lines (trim marker) (trim styleName) lines attributes hm hmt hsd hl]

/-- Four lines, two of them marked, with the marker given as ` >r `. -/
theorem compile_rewrites_all_lines_witness :
    (trim " >r ".toList ≠ [] ∧ (∀ x ∈ trim " >r ".toList, isLineTerminator x = false)
      ∧ trim "RightAligned".toList ≠ [] ∧ (∀ x ∈ trim "RightAligned".toList, x ≠ '$')
      ∧ (∀ l ∈ [">r Hello there".toList, "plain >r text".toList, [], ">r second".toList],
          SimpleLine (trim " >r ".toList) l))
    ∧ compile
          [{ contents := JSValue.string
              ">r Hello there\nplain >r text\n\n>r second".toList, attributes := [] }]
          { marker := JSValue.string " >r ".toList,
            styleName := JSValue.string "RightAligned".toList }
        = Except.ok
            { warnings := []
              scenes :=
                [{ contents := JSValue.string
                    ("::: \x7bcustom-style=\"RightAligned\" .RightAligned\x7d\nHello there\n:::\n"
                      ++ "plain >r text\n\n"
                      ++ "::: \x7bcustom-style=\"RightAligned\" .RightAligned\x7d\nsecond\n:::"
                    ).toList,
                   attributes := [] }] } :=
  have hl : ∀ l ∈ [">r Hello there".toList, "plain >r text".toList, [], ">r second".toList],
      SimpleLine (trim " >r ".toList) l := by
    intro l hl
    simp only [List.mem_cons, List.mem_singleton, List.not_mem_nil, or_false] at hl
    rcases hl with hl | hl | hl | hl
    · rw [hl]
      exact ⟨by decide, Or.inl ⟨'H', "ello there".toList, by decide, by decide⟩⟩
    · rw [hl]
      exact ⟨by decide, Or.inr (by decide)⟩
    · rw [hl]
      exact ⟨by decide, Or.inr (by decide)⟩
    · rw [hl]
      exact ⟨by decide, Or.inl ⟨'s', "econd".toList, by decide, by decide⟩⟩
  ⟨⟨by decide, by decide, by decide, by decide, hl⟩,
    compile_rewrites_all_lines []
      " >r ".toList "RightAligned".toList
      [">r Hello there".toList, "plain >r text".toList, [], ">r second".toList]
      (by decide) (by decide) (by decide) (by decide) hl⟩

/-- C9 (the code at a failing input): with marker `>r` and style
`RightAligned`, the first line of the contents `>r  ` / `Next line` is the
marker followed only by spaces.  The claim asks for a block with an empty
content line and then `Next line` unchanged after the closing `:::`.
`compile` writes one block whose content is `Next line`: the captured content
is not the remainder of the marker's own line. -/
theorem compile_capture_crosses_line :
    compile [{ contents := JSValue.string ">r  \nNext line".toList, attributes := [] }]
        { marker := JSValue.string ">r".toList,
          styleName := JSValue.string "RightAligned".toList }
      = Except.ok
          { warnings := []
            scenes := [{ contents := JSValue.string
                          ("::: \x7bcustom-style=\"RightAligned\" .RightAligned\x7d\nNext line\n:::").toList,
                         attributes := [] }] }
    ∧ ("::: \x7bcustom-style=\"RightAligned\" .RightAligned\x7d\nNext line\n:::").toList
      ≠ fencedBlock "RightAligned".toList [] ++ "\nNext line".toList :=
  ⟨rfl, by decide⟩

/-- C10: whatever the configuration, a scene whose contents are absent
(`undefined`), `null` or the empty string is returned unchanged, at its
place. -/
theorem compile_falsy_scene_unchanged (input : List Scene) (context : Context) (i : Nat)
    (scene : Scene) (hi : input[i]? = some scene) (hf : truthy scene.contents = false) :
    ∃ r, compile input context = Except.ok r ∧ r.scenes[i]? = some scene := by
  obtain ⟨r, hr, hs | ⟨re, template, hs⟩⟩ := compile_scenes input context
  · exact ⟨r, hr, by rw [hs]; exact hi⟩
  · refine ⟨r, hr, ?_⟩
    rw [hs, List.getElem?_map, hi, Option.map_some', compileScene_falsy _ _ _ hf]

/-- An empty scene next to a scene that is rewritten. -/
theorem compile_falsy_scene_unchanged_witness :
    ([{ contents := JSValue.string ">r a".toList, attributes := [] },
        ({ contents := JSValue.string [], attributes := [] } : Scene)][1]?
        = some { contents := JSValue.string [], attributes := [] }
      ∧ truthy (JSValue.string []) = false)
    ∧ ∃ r, compile
          [{ contents := JSValue.string ">r a".toList, attributes := [] },
            { contents := JSValue.string [], attributes := [] }]
          { marker := JSValue.string ">r".toList, styleName := JSValue.string "S".toList }
        = Except.ok r
      ∧ r.scenes[1]? = some { contents := JSValue.string [], attributes := [] } :=
  ⟨⟨rfl, rfl⟩, compile_falsy_scene_unchanged _ _ 1 _ rfl rfl⟩

/-- C11: for every input sequence and every configuration, `compile` returns
a sequence of the same length whose scene at each index is the input scene at
that index with, at most, other contents: every other attribute is the
original one. -/
theorem compile_preserves_sequence (input : List Scene) (context : Context) :
    ∃ r, compile input context = Except.ok r
      ∧ r.scenes.length = input.length
      ∧ ∀ (i : Nat) (scene : Scene), input[i]? = some scene →
          ∃ contents : JSValue, r.scenes[i]?
            = some ({ contents := contents, attributes := scene.attributes } : Scene) := by
  obtain ⟨r, hr, hs | ⟨re, template, hs⟩⟩ := compile_scenes input context
  · refine ⟨r, hr, by rw [hs], ?_⟩
    intro i scene hi
    exact ⟨scene.contents, by rw [hs, hi]⟩
  · refine ⟨r, hr, by rw [hs, List.length_map], ?_⟩
    intro i scene hi
    refine ⟨(compileScene re template scene).contents, ?_⟩
    rw [hs, List.getElem?_map, hi, Option.map_some', ← compileScene_attributes re template scene]

/-- C12: for every string, `escapeRegExp` gives the concatenation, character
by character, of a backslash and the character for each of the fourteen
characters `. * + ? ^ $ { } ( ) | [ ] \` and of the character alone for every
other one; the empty string gives the empty string. -/
theorem escapeRegExp_char_by_char (s : JSString) :
    escapeRegExp s
        = s.flatMap (fun c =>
            if c ∈ ['.', '*', '+', '?', '^', '$', '\x7b', '\x7d', '(', ')', '|', '[', ']', '\\']
            then ['\\', c] else [c])
      ∧ escapeRegExp [] = [] := by
  refine ⟨?_, escapeRegExp_eq_flatMap []⟩
  rw [escapeRegExp_eq_flatMap]
  congr 1
  funext c
  by_cases hc : isSyntaxCharacter c = true
  · have hmem := (isSyntaxCharacter_iff_mem c).1 hc
    rw [escapedCharacters] at hmem
    rw [escapeChar, if_pos hc, if_pos hmem]
  · have hmem : ¬ c ∈ escapedCharacters := fun h => hc ((isSyntaxCharacter_iff_mem c).2 h)
    rw [escapedCharacters] at hmem
    rw [escapeChar, if_neg hc, if_neg hmem]

/-- C15: `compile` never fails.  For every configuration whose options are
strings or absent and every sequence of scenes whose contents are strings or
absent, `compile` returns a result; in particular the constructor of regular
expressions accepts the generated pattern whatever characters the marker
holds. -/
theorem compile_never_fails (input : List Scene) (context : Context) :
    (∃ r, compile input context = Except.ok r)
      ∧ ∀ marker : JSString, ∃ re, RegExp.construct (patternSource marker) true = some re := by
  obtain ⟨r, hr, _⟩ := compile_scenes input context
  exact ⟨⟨r, hr⟩, fun marker => ⟨_, construct_patternSource marker⟩⟩

/-- C16: the exported description applies to exactly the kind `Scene` and has
exactly two options, in this order: `marker` of type `Text` with default `>r`
and `styleName` of type `Text` with default `RightAligned`; each option has a
name and a description; and with these defaults as configuration `compile`
passes its check of the options and records no warning. -/
theorem description_declares_options :
    description.availableKinds = ["Scene".toList]
      ∧ description.options.map (fun o => (o.id, o.type, o.default))
        = [("marker".toList, "Text".toList, ">r".toList),
           ("styleName".toList, "Text".toList, "RightAligned".toList)]
      ∧ (∀ o ∈ description.options, o.name ≠ [] ∧ o.description ≠ [])
      ∧ isMissingOrBlank (defaultContext description).marker = false
      ∧ isMissingOrBlank (defaultContext description).styleName = false
      ∧ ∀ input, ∃ r, compile input (defaultContext description) = Except.ok r
          ∧ r.warnings = [] := by
  refine ⟨rfl, rfl, by decide, by decide, by decide, ?_⟩
  intro input
  obtain ⟨m, s, _, _, _, _, h⟩ :=
    compile_of_not_blank input (defaultContext description) (by decide) (by decide)
  exact ⟨_, h, rfl⟩

/-- C17: `compile` records exactly one warning when the marker or the style
name is missing or blank after trimming, and then returns its input; it
records no warning otherwise, and then the scenes it returns differ from the
input at most in their contents. -/
theorem compile_warnings (input : List Scene) (context : Context) :
    ∃ r, compile input context = Except.ok r
      ∧ ((isMissingOrBlank context.marker = true ∨ isMissingOrBlank context.styleName = true) →
          r.warnings = [warningMessage] ∧ r.scenes = input)
      ∧ (¬ (isMissingOrBlank context.marker = true
            ∨ isMissingOrBlank context.styleName = true) →
          r.warnings = []
            ∧ r.scenes.map (fun s => s.attributes) = input.map (fun s => s.attributes)) := by
  by_cases hb : isMissingOrBlank context.marker = true ∨ isMissingOrBlank context.styleName = true
  · exact ⟨_, compile_of_blank input context hb, fun _ => ⟨rfl, rfl⟩, fun h => absurd hb h⟩
  · rw [not_or] at hb
    obtain ⟨m, s, _, _, _, _, h⟩ := compile_of_not_blank input context
      (by simpa using hb.1) (by simpa using hb.2)
    refine ⟨_, h, fun h2 => absurd h2 (by rw [not_or]; exact hb), fun _ => ⟨rfl, ?_⟩⟩
    exact map_compileScene_attributes _ _ input

/-- C14: both options are trimmed before use.  For every sequence of scenes
and all strings `m` and `S`, `compile` with marker `m` and style name `S`
gives the same result as `compile` with marker `trim m` and style name
`trim S`. -/
theorem compile_trimmed_options (input : List Scene) (m S : JSString) :
    compile input { marker := JSValue.string m, styleName := JSValue.string S }
      = compile input
          { marker := JSValue.string (trim m), styleName := JSValue.string (trim S) } := by
  simp only [compile, optionalTrim, trim_trim]

/-- C18: for a valid configuration, a scene whose contents do not contain the
trimmed marker as a substring is returned with its contents unchanged. -/
theorem compile_without_marker_unchanged (input : List Scene) (i : Nat)
    (attributes : List (JSString × JSValue)) (marker styleName s : JSString)
    (hm : trim marker ≠ []) (hs : trim styleName ≠ [])
    (hno : ¬ trim marker <:+: s)
    (hi : input[i]? = some { contents := JSValue.string s, attributes := attributes }) :
    ∃ r, compile input
          { marker := JSValue.string marker, styleName := JSValue.string styleName }
          = Except.ok r
      ∧ r.scenes[i]? = some { contents := JSValue.string s, attributes := attributes } := by
  obtain ⟨r, hr, _, hri⟩ := compile_scene_at input marker styleName i _ hm hs hi
  refine ⟨r, hr, ?_⟩
  rw [hri]
  by_cases he : s = []
  · rw [compileScene_falsy _ _ _ (by simp [truthy, he])]
  · rw [compileScene_string _ _ _ _ he]
    unfold replaceAll
    rw [replaceGo_no_occurrence]
    intro t ht hp
    exact hno (List.IsInfix.trans hp.isInfix ht.isInfix)

/-- Two lines that hold `>` and `r` but never `>r`, with the marker `>r`. -/
theorem compile_without_marker_unchanged_witness :
    (trim ">r".toList ≠ [] ∧ trim "Note".toList ≠ []
      ∧ ¬ trim ">r".toList <:+: "plain text,\nno > r code".toList
      ∧ [({ contents := JSValue.string "plain text,\nno > r code".toList,
            attributes := [] } : Scene)][0]?
          = some { contents := JSValue.string "plain text,\nno > r code".toList,
                   attributes := [] })
    ∧ ∃ r, compile
          [{ contents := JSValue.string "plain text,\nno > r code".toList, attributes := [] }]
          { marker := JSValue.string ">r".toList, styleName := JSValue.string "Note".toList }
          = Except.ok r
      ∧ r.scenes[0]? = some
          { contents := JSValue.string "plain text,\nno > r code".toList, attributes := [] } :=
  ⟨⟨by decide, by decide, by decide, by decide⟩,
    compile_without_marker_unchanged
      [{ contents := JSValue.string "plain text,\nno > r code".toList, attributes := [] }] 0 []
      ">r".toList "Note".toList "plain text,\nno > r code".toList
      (by decide) (by decide) (by decide) (by decide)⟩

/-- C19: in every match of the generated pattern the input at the match is the
marker, a non-empty run `w` of white space that is consumed in full (what
follows it does not start with white space), and the captured content `c` of
group 1.  The captured content does not start with white space and holds no
line terminator, and it is empty only when nothing follows the run: the white
space after the marker runs to the end of the contents. -/
theorem generated_capture (marker input : JSString) (re : RegExp) (prev : Option Char)
    (r : MatchState)
    (hre : RegExp.construct (patternSource marker) true = some re)
    (hmatch : matchNodes re.multiline re.nodes prev input = some r) :
    ∃ w c, input = marker ++ w ++ c ++ r.rest ∧ captures r.marks = [c]
      ∧ w ≠ [] ∧ (∀ x ∈ w, isSpaceClass x = true)
      ∧ (∀ a t, c ++ r.rest = a :: t → isSpaceClass a = false)
      ∧ (∀ a t, c = a :: t → isSpaceClass a = false)
      ∧ (∀ x ∈ c, isLineTerminator x = false)
      ∧ (c = [] → r.rest = []) := by
  rw [construct_patternSource] at hre
  have hre2 := (Option.some.inj hre).symm
  subst hre2
  obtain ⟨_, c0, cs, hin, hc0, hr⟩ := generated_match_inv marker input prev r hmatch
  subst hr
  have hsplit : skipSpaces cs
      = (skipSpaces cs).takeWhile (fun c => !isLineTerminator c)
        ++ restOfLine (skipSpaces cs) := by
    rw [restOfLine, List.takeWhile_append_dropWhile]
  have hhead : ∀ a t, skipSpaces cs = a :: t → isSpaceClass a = false :=
    fun a t h => dropWhile_head_not isSpaceClass cs a t h
  refine ⟨c0 :: cs.takeWhile isSpaceClass,
    (skipSpaces cs).takeWhile (fun c => !isLineTerminator c), ?_, ?_, ?_, ?_, ?_, ?_, ?_, ?_⟩
  · rw [hin]
    simp only [List.append_assoc, List.cons_append]
    rw [← hsplit, ← takeWhile_append_dropWhile_space cs]
  · simp only [captures, segment_restOfLine]
  · exact List.cons_ne_nil _ _
  · intro x hx
    rcases List.mem_cons.1 hx with hx | hx
    · rw [hx]; exact hc0
    · exact List.mem_takeWhile_imp hx
  · intro a t h
    rw [← hsplit] at h
    exact hhead a t h
  · intro a t h
    cases hw : skipSpaces cs with
    | nil => rw [hw] at h; simp at h
    | cons b u =>
      have hb := hhead b u hw
      rw [hw, List.takeWhile_cons] at h
      split at h
      · rw [← (List.cons.inj h).1]; exact hb
      · exact absurd h (by simp)
  · intro x hx
    have := List.mem_takeWhile_imp hx
    simpa using this
  · intro hc
    cases hw : skipSpaces cs with
    | nil => simp [restOfLine]
    | cons b u =>
      have hb := hhead b u hw
      have hlt : isLineTerminator b = false := by
        cases hl : isLineTerminator b
        · rfl
        · simp [isSpaceClass, hl] at hb
      rw [hw, List.takeWhile_cons] at hc
      simp [hlt] at hc

/-- The marker `>r` at the start of the contents, followed by two spaces,
`Hello` and a further line. -/
theorem generated_capture_witness :
    (RegExp.construct (patternSource ">r".toList) true = some (generatedRegExp ">r".toList)
      ∧ matchNodes (generatedRegExp ">r".toList).multiline (generatedRegExp ">r".toList).nodes
          none ">r  Hello\nmore".toList
        = some { rest := "\nmore".toList, marks := ["Hello\nmore".toList, "\nmore".toList] })
    ∧ ∃ w c, ">r  Hello\nmore".toList = ">r".toList ++ w ++ c ++ "\nmore".toList
      ∧ captures ["Hello\nmore".toList, "\nmore".toList] = [c]
      ∧ w ≠ [] ∧ (∀ x ∈ w, isSpaceClass x = true)
      ∧ (∀ a t, c ++ "\nmore".toList = a :: t → isSpaceClass a = false)
      ∧ (∀ a t, c = a :: t → isSpaceClass a = false)
      ∧ (∀ x ∈ c, isLineTerminator x = false)
      ∧ (c = [] → "\nmore".toList = []) :=
  ⟨⟨rfl, rfl⟩,
    generated_capture ">r".toList ">r  Hello\nmore".toList (generatedRegExp ">r".toList) none
      { rest := "\nmore".toList, marks := ["Hello\nmore".toList, "\nmore".toList] } rfl rfl⟩

/-- C13: for every string `s`, `escapeRegExp s` is a well-formed pattern that
matches `s` literally.  It is the concatenation of the tokens
`s.map escapeChar`, each one character that is not a syntax character or a
backslash followed by one syntax character, and no other list of such tokens
concatenates to it; reading the tokens back gives `s`; the constructor of
regular expressions accepts it; and the pattern matches at a position exactly
when the input there starts with `s`, consuming `s` and nothing more. -/
theorem escapeRegExp_matches_literally (s : JSString) :
    (∀ t ∈ s.map escapeChar, IsEscapeToken t)
      ∧ (s.map escapeChar).flatten = escapeRegExp s
      ∧ (∀ ts : List JSString, (∀ t ∈ ts, IsEscapeToken t) →
          ts.flatten = escapeRegExp s → ts = s.map escapeChar)
      ∧ (s.map escapeChar).map tokenChar = s.map some
      ∧ ∀ ml : Bool, ∃ re, RegExp.construct (escapeRegExp s) ml = some re
          ∧ ∀ (prev : Option Char) (input : JSString) (r : MatchState),
              matchNodes re.multiline re.nodes prev input = some r
                ↔ (input = s ++ r.rest ∧ r.marks = []) := by
  have htok : ∀ t ∈ s.map escapeChar, IsEscapeToken t := by
    intro t ht
    obtain ⟨c, _, hc⟩ := List.mem_map.1 ht
    rw [← hc]
    exact escapeChar_isEscapeToken c
  have hflat : (s.map escapeChar).flatten = escapeRegExp s := by
    rw [escapeRegExp_eq_flatMap, List.flatMap_def]
  refine ⟨htok, hflat, ?_, ?_, ?_⟩
  · intro ts hts h
    exact escapeToken_unique ts _ hts htok (by rw [h, hflat])
  · rw [List.map_map]
    apply List.map_congr_left
    intro c _
    exact tokenChar_escapeChar c
  · intro ml
    refine ⟨_, construct_escaped s ml, ?_⟩
    intro prev input r
    simp only []
    rw [matchNodes_literal]
    constructor
    · intro h
      by_cases hp : s <+: input
      · rw [if_pos hp] at h
        have hr := (Option.some.inj h).symm
        subst hr
        obtain ⟨x, hx⟩ := hp
        subst hx
        exact ⟨by simp, rfl⟩
      · rw [if_neg hp] at h
        exact absurd h (by simp)
    · rintro ⟨hin, hmarks⟩
      have hp : s <+: input := ⟨r.rest, hin.symm⟩
      rw [if_pos hp]
      obtain ⟨rest, marks⟩ := r
      simp only at hin hmarks
      subst hmarks
      rw [hin]
      simp

end SmartStyleReplacer
